import Mathlib

/-!
Verification of the `itkimage2dicomseg` DICOM-SEG writer against its
natural-language specification.

The development shallowly embeds the Python sources:

* `segmentation_filename_patterns_matcher.py` — substring search and the
  per-filename match computation (`strFind`, `matchesOne`, `matchesAll`);
* `path_generator.py` — the resumable patient-path generator
  (`PathGenerator`, `PathGenerator.send`, `runSends`);
* `dicom_seg_writer.py` — series enumeration (`seriesIds`),
  series-data construction with the one-patient-per-folder check
  (`seriesDataList`), the interactive series-selection loop
  (`selectSeriesLoop`), the y/n continuation loop
  (`isSegAssocProcessComplete`), the nearest-neighbour resampling wrapper
  (`resampleMask`), and the top-level `write` orchestration loop
  (`iterOnce`, `fileLoop`, `writeFiles`, `write`).

External library calls (SimpleITK, pydicom-seg, the UID generator) are
modelled as parameters of the embedding: the GDCM series enumeration is an
input list `RawSeries`, the encoder is a fallible function `enc`, saving is
a predicate `diskOk`, and `generate_uid` is a call-indexed stream
`uid : Nat → String`.  Console input is a list of `Line`s, each line being
abstracted by its two observations used by the code: the result of Python
`int()` parsing and the raw text.  Runs are recorded as traces of events
(`Ev`): resample, encode, UID assignment, save, delete.
-/

/-- `os.path.join` for a folder and a plain entry name (the only use in the
code joins a folder with a `listdir` entry, which contains no separator). -/
def pathJoin (folder name : String) : String := folder ++ "/" ++ name

/-- Index of the last `'.'` in a list of characters (`str.rfind('.')`),
`none` when absent (Python returns `-1`). -/
def rfindDot : List Char → Option Nat
  | [] => none
  | c :: t =>
    match rfindDot t with
    | some i => some (i + 1)
    | none => if c = '.' then some 0 else none

/-- `pathlib.PurePath.stem` on a final path component: the name with its last
suffix removed, where a suffix starts at the last dot `i` with
`0 < i < len(name) - 1`. -/
def pathStem (name : String) : String :=
  match rfindDot name.data with
  | some i => if 0 < i ∧ i < name.data.length - 1 then String.mk (name.data.take i) else name
  | none => name

/-- `str.lower` on a single character, ASCII fragment (the code only ever
lowers the literal answers `"y"`/`"n"`). -/
def pyLowerChar (c : Char) : Char :=
  if 'A' ≤ c ∧ c ≤ 'Z' then Char.ofNat (c.toNat + 32) else c

/-- `str.lower` (ASCII fragment). -/
def pyLower (s : String) : String := String.mk (s.data.map pyLowerChar)

/-- Python list indexing `l[k]` with an `int` index: negative indices count
from the end; `none` models the `IndexError` on an out-of-range index. -/
def pyListGet {α : Type} (l : List α) (k : Int) : Option α :=
  let n : Int := l.length
  let j : Int := if k < 0 then n + k else k
  if 0 ≤ j ∧ j < n then l.get? j.toNat else none

/-! ### `SegmentationFilenamePatternsMatcher` (claim C9) -/

/-- Boolean list-prefix test (`str.startswith` on character lists). -/
def isPrefL : List Char → List Char → Bool
  | [], _ => true
  | _ :: _, [] => false
  | a :: as, b :: bs => a == b && isPrefL as bs

/-- `str.find(pattern)`: index of the first occurrence of `p` as a substring
of the list, `none` when `p` does not occur (Python returns `-1`; the code
only calls `find` after `pattern in path` succeeded). -/
def strFind (p : List Char) : List Char → Option Nat
  | [] => if p.isEmpty then some 0 else none
  | c :: t => if isPrefL p (c :: t) then some 0 else (strFind p t).map (· + 1)

/-- Result of a Python computation that may raise `IndexError`. -/
inductive PyRes (α : Type) where
  | ok (a : α)
  | indexError
deriving DecidableEq, Repr

/-- One loop body of `SegmentationFilenamePatternsMatcher.matches` for a
single filename `f`: if `patient_id` occurs in `f`, look at the character
right after the first occurrence (`f[start + len(pattern)]`, which raises
`IndexError` past the end) and mark a match when it is not a digit. -/
def matchesOne (patientId f : List Char) : PyRes Bool :=
  match strFind patientId f with
  | none => .ok false
  | some start =>
    match f[start + patientId.length]? with
    | some c => .ok (!c.isDigit)
    | none => .indexError

/-- `SegmentationFilenamePatternsMatcher.matches`: the boolean list over all
segmentation filenames; the first `IndexError` aborts the computation, as the
Python loop raises there. -/
def matchesAll (patientId : List Char) : List (List Char) → PyRes (List Bool)
  | [] => .ok []
  | f :: fs =>
    match matchesOne patientId f with
    | .indexError => .indexError
    | .ok b =>
      match matchesAll patientId fs with
      | .indexError => .indexError
      | .ok bs => .ok (b :: bs)

/-! ### `PathGenerator` (claim C10) -/

/-- State of a `PathGenerator`: the `listdir`-derived patient folder paths
and the running index. -/
structure PathGenerator where
  paths : List String
  currentIndex : Nat
deriving DecidableEq, Repr

/-- The two exceptions `PathGenerator.send` can raise. -/
inductive GenErr where
  | stopIteration
  | indexError
deriving DecidableEq, Repr

/-- `PathGenerator.send`: when the index is nonzero and equals the length,
`self.throw()` raises `StopIteration`; otherwise the code indexes
`paths[current_index]` (which raises `IndexError` when out of range — in
particular on the first call over an empty folder, since the length check
sits in an `elif` behind the `current_index == 0` branch) and increments the
index.  The generated `Path` object is represented by the folder path that
determines it. -/
def PathGenerator.send (g : PathGenerator) : Except GenErr (String × PathGenerator) :=
  if g.currentIndex ≠ 0 ∧ g.currentIndex = g.paths.length then .error .stopIteration
  else
    match g.paths.get? g.currentIndex with
    | none => .error .indexError
    | some p => .ok (p, ⟨g.paths, g.currentIndex + 1⟩)

/-- Results of the first `k` calls to `send`; a raising call leaves the
generator state unchanged (the exception fires before the index update). -/
def runSends (g : PathGenerator) : Nat → List (Except GenErr String)
  | 0 => []
  | k + 1 =>
    match g.send with
    | .ok (p, g') => .ok p :: runSends g' k
    | .error e => .error e :: runSends g k

/-! ### `_resample_mask` (claim C4) -/

/-- A SimpleITK volume, flattened: a voxel count, the voxel values, and the
pixel type identifier (`GetPixelID`). -/
structure SITKImage where
  size : Nat
  pixel : Nat → Int
  pixelID : Nat

/-- SimpleITK interpolator choice. -/
inductive Interp where
  | nearestNeighbor
  | linear

/-- Modelled from the SimpleITK library contract of
`sitk.Resample(image1, referenceImage, transform, interpolator,
defaultPixelValue, outputPixelType)`: the output lives on the reference
grid; `geom` abstracts the composed transform, sending each output voxel to
its nearest input voxel, or `none` when the mapped point falls outside the
input extent, in which case the default pixel value is used.  With
nearest-neighbour interpolation the output voxel copies the mapped input
voxel; the `linear` branch is a stand-in average of two neighbouring voxels,
exhibiting how a non-nearest interpolator mixes label values. -/
def sitkResample (mask : SITKImage) (reference : SITKImage) (geom : Nat → Option Nat)
    (interp : Interp) (defaultPixelValue : Int) (outputPixelType : Nat) : SITKImage :=
  { size := reference.size
    pixelID := outputPixelType
    pixel := fun v =>
      match interp with
      | .nearestNeighbor =>
        match geom v with
        | some j => mask.pixel j
        | none => defaultPixelValue
      | .linear =>
        match geom v with
        | some j => (mask.pixel j + mask.pixel (j + 1)) / 2
        | none => defaultPixelValue }

/-- `DicomSEGWriter._resample_mask`: resample the mask onto the source
image's grid with nearest-neighbour interpolation, default pixel value `0`,
and the mask's own pixel type. -/
def resampleMask (mask image : SITKImage) (geom : Nat → Option Nat) : SITKImage :=
  sitkResample mask image geom .nearestNeighbor 0 mask.pixelID

/-! ### The `DicomSEGWriter.write` model (claims C1, C2, C3, C5, C6, C7, C8) -/

/-- A line read from the interactive console, abstracted by the two
observations the code makes of it: the result of Python `int()` parsing
(`none` models a `ValueError`) and the raw text. -/
structure Line where
  parseInt : Option Int
  text : String
deriving DecidableEq, Repr

/-- The DICOM header fields of the first slice of a series that the code
reads: `PatientID`, `SeriesDescription`. -/
structure DicomHeader where
  patientID : String
  seriesDescription : String
deriving DecidableEq, Repr

/-- One series as enumerated by GDCM in the patient's DICOM folder: its
series instance UID (`GetGDCMSeriesIDs`), its ordered slice file list
(`GetGDCMSeriesFileNames`), and the loaded header of its first file
(`get_dicom_header`; GDCM returns a non-empty file list for every
enumerated series id). -/
structure RawSeries where
  id : String
  files : List String
  header : DicomHeader
deriving DecidableEq, Repr

/-- `DicomSEGWriter.SeriesData`. -/
structure SeriesData where
  seriesDescription : String
  pathsToDicomsFromSeries : List String
  dicomHeader : DicomHeader
deriving DecidableEq, Repr

/-- Build one `SeriesData` from an enumerated series, as the loop body of
`__series_data_list` does. -/
def mkSeriesData (r : RawSeries) : SeriesData :=
  { seriesDescription := r.header.seriesDescription
    pathsToDicomsFromSeries := r.files
    dicomHeader := r.header }

/-- The exceptions a `write` run can propagate. `noSeriesFound` is the
`FileNotFoundError` of `__series_ids` (the spec's `NoSeriesFoundError`),
`multiPatient` the `AssertionError` of `__series_data_list` (the spec's
`MultiPatientInconsistencyError`), `encodeFail` an exception escaping
`pydicom_seg.MultiClassWriter.write`, `saveFail` one escaping
`dcm.save_as`; the latter two carry the segmentation path being processed. -/
inductive RunErr where
  | noSeriesFound (dir : String)
  | multiPatient (uids : List String)
  | encodeFail (segPath : String)
  | saveFail (segPath outPath : String)
deriving DecidableEq, Repr

/-- Run events, each carrying the segmentation source path it concerns:
resampling, the encoder call, the UID overwrite, the `save_as`, and the
`os.remove` of the source file.  A save records the saved dataset's final
`SOPInstanceUID` and `SeriesInstanceUID` and the index of the
`generate_uid` call that produced the `SOPInstanceUID`. -/
inductive Ev where
  | resample (segPath : String)
  | encode (segPath : String) (sourceImages : List String)
  | setUIDs (segPath sop ser : String)
  | save (segPath outPath sop ser : String) (ctr : Nat)
  | delete (segPath : String)
deriving DecidableEq, Repr

/-- The segmentation source path an event concerns. -/
def Ev.evFile : Ev → String
  | .resample f => f
  | .encode f _ => f
  | .setUIDs f _ _ => f
  | .save f _ _ _ _ => f
  | .delete f => f

/-- A saved output dataset, as recorded by a save event. -/
structure SaveInfo where
  segPath : String
  outPath : String
  sop : String
  ser : String
  ctr : Nat
deriving DecidableEq, Repr

/-- The saved datasets of a trace, in save order. -/
def savesOf (t : List Ev) : List SaveInfo :=
  t.filterMap fun ev =>
    match ev with
    | .save f p sop ser c => some ⟨f, p, sop, ser, c⟩
    | _ => none

/-- The dataset returned by `pydicom_seg.MultiClassWriter.write`, abstracted
by the two attributes the code overwrites. -/
structure LibDs where
  sopInstanceUID : String
  seriesInstanceUID : String

/-- The external world of one `write` run: the enumerated series of the
patient's DICOM folder, the encoding library (`none` models an exception),
the success of `dcm.save_as` on a path, and the `generate_uid` stream
indexed by call number. -/
structure WEnv where
  series : List RawSeries
  enc : String → List String → Option LibDs
  diskOk : String → Bool
  uid : Nat → String

/-- The three keyword flags of `DicomSEGWriter.write`. -/
structure WCfg where
  resample : Bool
  deleteItk : Bool
  multiAssoc : Bool
deriving DecidableEq, Repr

/-- `DicomSEGWriter.__series_ids`: the GDCM series ids of the patient's
DICOM folder; raises when the folder yields zero series. -/
def seriesIds (dir : String) (series : List RawSeries) : Except RunErr (List String) :=
  match series with
  | [] => .error (.noSeriesFound dir)
  | _ => .ok (series.map (·.id))

/-- `DicomSEGWriter.__series_data_list`: build the `SeriesData` list while
collecting every series header's `PatientID` into a set; raise the
consistency error when the set does not have exactly one element. -/
def seriesDataList (dir : String) (series : List RawSeries) : Except RunErr (List SeriesData) :=
  match seriesIds dir series with
  | .error e => .error e
  | .ok _ =>
    if ((series.map (·.header.patientID)).dedup).length ≠ 1 then
      .error (.multiPatient ((series.map (·.header.patientID)).dedup))
    else
      .ok (series.map mkSeriesData)

/-- The error classes reported by the series-selection loop. -/
inductive SelReport where
  | valueError
  | indexError
deriving DecidableEq, Repr

/-- How the selection loop treats one input line: `ValueError` when `int()`
fails, `IndexError` when the parsed integer is out of range for the series
list, `none` when the line is accepted. -/
def classifySel (sdl : List SeriesData) (l : Line) : Option SelReport :=
  match l.parseInt with
  | none => some .valueError
  | some k => if (pyListGet sdl k).isSome then none else some .indexError

/-- The `while True` selection loop of
`get_dicom_series_paths_for_given_segmentation`: read a line, try
`series_data_list[int(line)]`; report `ValueError`/`IndexError` and
re-prompt on failure, break on success.  Returns the chosen series, the
error reports printed before acceptance, and the unconsumed input;
`none` when input is exhausted (the loop blocks forever). -/
def selectSeriesLoop (sdl : List SeriesData) : List Line → Option (SeriesData × List SelReport × List Line)
  | [] => none
  | l :: rest =>
    match l.parseInt with
    | none => (selectSeriesLoop sdl rest).map fun (sd, rs, st) => (sd, .valueError :: rs, st)
    | some k =>
      match pyListGet sdl k with
      | some sd => some (sd, [], rest)
      | none => (selectSeriesLoop sdl rest).map fun (sd, rs, st) => (sd, .indexError :: rs, st)

/-- `DicomSEGWriter.get_dicom_series_paths_for_given_segmentation`: build the
series data list (propagating its errors), then run the selection loop and
return the chosen series' slice paths. -/
def getDicomSeriesPathsForGivenSegmentation (dir : String) (series : List RawSeries)
    (stream : List Line) : Except RunErr (Option (List String × List Line)) :=
  match seriesDataList dir series with
  | .error e => .error e
  | .ok sdl => .ok ((selectSeriesLoop sdl stream).map fun (sd, _, st) => (sd.pathsToDicomsFromSeries, st))

/-- `DicomSEGWriter.is_segmentation_association_process_complete`: loop until
the answer is literally `"y"` or `"n"`; on acceptance return
`answer.lower() in ["n"]` and the unconsumed input; `none` when input is
exhausted. -/
def isSegAssocProcessComplete : List Line → Option (Bool × List Line)
  | [] => none
  | l :: rest =>
    if l.text = "y" ∨ l.text = "n" then some ((["n"].contains (pyLower l.text)), rest)
    else isSegAssocProcessComplete rest

/-- The output path of the `i`-th association of a segmentation file:
`f"{os.path.join(segmentations_folder, Path(path_to_seg).stem)}_{i}.SEG.dcm"`. -/
def outPath (segFolder name : String) (i : Nat) : String :=
  pathJoin segFolder (pathStem name) ++ "_" ++ toString i ++ ".SEG.dcm"

/-- Result of one iteration of the per-file `while not process_complete`
loop, up to and including the save. -/
inductive IterRes where
  | raisedE (e : RunErr) (evs : List Ev)
  | blockedE (evs : List Ev)
  | savedE (evs : List Ev) (stream : List Line)

/-- The resampling event of one iteration, emitted only when
`resample_segmentation_to_source_image_size` is set. -/
def resampleEvs (cfg : WCfg) (segPath : String) : List Ev :=
  if cfg.resample then [Ev.resample segPath] else []

/-- One iteration of the per-file loop of `DicomSEGWriter.write`: resolve
the association (selection loop), optionally resample, encode, overwrite
the UIDs with two fresh `generate_uid` calls (`u` and `u + 1`), and save to
the indexed output path. -/
def iterOnce (cfg : WCfg) (dir segFolder : String) (env : WEnv) (name : String)
    (i u : Nat) (stream : List Line) : IterRes :=
  match getDicomSeriesPathsForGivenSegmentation dir env.series stream with
  | .error e => .raisedE e []
  | .ok none => .blockedE []
  | .ok (some (sourceImages, stream')) =>
    let segPath := pathJoin segFolder name
    match env.enc segPath sourceImages with
    | none => .raisedE (.encodeFail segPath) (resampleEvs cfg segPath ++ [Ev.encode segPath sourceImages])
    | some _ds =>
      let sop := env.uid u
      let ser := env.uid (u + 1)
      let p := outPath segFolder name i
      if env.diskOk p then
        .savedE (resampleEvs cfg segPath ++ [Ev.encode segPath sourceImages, Ev.setUIDs segPath sop ser,
          Ev.save segPath p sop ser u]) stream'
      else
        .raisedE (.saveFail segPath p)
          (resampleEvs cfg segPath ++ [Ev.encode segPath sourceImages, Ev.setUIDs segPath sop ser])

/-- Result of processing one segmentation file to completion. -/
inductive StepRes where
  | blocked (trace : List Ev)
  | raised (e : RunErr) (trace : List Ev)
  | done (trace : List Ev) (stream : List Line) (uidCtr : Nat)

/-- The `while not process_complete` loop of `DicomSEGWriter.write` for one
segmentation file, with association index `i` and `generate_uid` call
counter `u`.  After a save, when multi-image association is enabled the
continuation prompt decides whether to loop (incrementing `i`); the source
file is removed exactly when deletion is configured and the loop completes.
`fuel` bounds the number of iterations; each iteration consumes at least one
input line, so `stream.length + 1` fuel is always sufficient. -/
def fileLoop (cfg : WCfg) (dir segFolder : String) (env : WEnv) (name : String) :
    Nat → Nat → Nat → List Line → StepRes
  | 0, _, _, _ => .blocked []
  | fuel + 1, i, u, stream =>
    match iterOnce cfg dir segFolder env name i u stream with
    | .raisedE e evs => .raised e evs
    | .blockedE evs => .blocked evs
    | .savedE evs stream' =>
      if cfg.multiAssoc then
        match isSegAssocProcessComplete stream' with
        | none => .blocked evs
        | some (complete, stream'') =>
          if complete then
            .done (evs ++ if cfg.deleteItk then [Ev.delete (pathJoin segFolder name)] else [])
              stream'' (u + 2)
          else
            match fileLoop cfg dir segFolder env name fuel (i + 1) (u + 2) stream'' with
            | .raised e t => .raised e (evs ++ t)
            | .blocked t => .blocked (evs ++ t)
            | .done t s' u' => .done (evs ++ t) s' u'
      else
        .done (evs ++ if cfg.deleteItk then [Ev.delete (pathJoin segFolder name)] else [])
          stream' (u + 2)

/-- Outcome of a whole `write` run: normal completion, blocked waiting for
console input, or an escaped exception. -/
inductive Outcome where
  | done
  | blocked
  | raised (e : RunErr)
deriving DecidableEq, Repr

/-- A whole run: its outcome and its event trace. -/
structure RunResult where
  outcome : Outcome
  trace : List Ev

/-- The `for path_to_seg in self._paths_to_segmentations` loop of
`DicomSEGWriter.write` over the segmentation folder's `listdir` entries,
threading the unconsumed console input and the `generate_uid` call counter
through the files; an exception aborts the remaining files. -/
def writeFiles (cfg : WCfg) (dir segFolder : String) (env : WEnv) :
    List String → Nat → List Line → RunResult
  | [], _, _ => ⟨.done, []⟩
  | name :: rest, u, s =>
    match fileLoop cfg dir segFolder env name (s.length + 1) 0 u s with
    | .blocked t => ⟨.blocked, t⟩
    | .raised e t => ⟨.raised e, t⟩
    | .done t s' u' =>
      let r := writeFiles cfg dir segFolder env rest u' s'
      ⟨r.outcome, t ++ r.trace⟩

/-- `DicomSEGWriter.write`: process every segmentation file of the
segmentations folder (`names` is its `listdir`), starting from the first
`generate_uid` call. -/
def write (cfg : WCfg) (dir segFolder : String) (env : WEnv) (names : List String)
    (stream : List Line) : RunResult :=
  writeFiles cfg dir segFolder env names 0 stream

/-! ### Trace checkers and helpers -/

/-- Is `ev` a save event of outputs derived from segmentation file `f`? -/
def isSaveOfB (f : String) : Ev → Bool
  | .save g _ _ _ _ => g == f
  | _ => false

/-- Is `ev` the delete event of segmentation file `f`? -/
def isDeleteOfB (f : String) : Ev → Bool
  | .delete g => g == f
  | _ => false

/-- No event of the list is a save derived from `f` or a delete of `f`. -/
def cleanFor (f : String) (t : List Ev) : Bool :=
  t.all fun ev => !isSaveOfB f ev && !isDeleteOfB f ev

/-- Write-before-delete discipline for file `f`: after a delete of `f`,
the rest of the trace holds no save derived from `f` and no further delete
of `f`. -/
def delOkB (f : String) : List Ev → Bool
  | [] => true
  | ev :: rest => if isDeleteOfB f ev then cleanFor f rest else delOkB f rest

/-- Adjacency discipline between two consecutive trace events: a UID
overwrite immediately follows the encoder call on the same file, and a save
immediately follows the UID overwrite installing exactly the saved
identifiers. -/
def adjOK : Ev → Ev → Bool
  | .encode f' _, .setUIDs f _ _ => f' == f
  | _, .setUIDs _ _ _ => false
  | .setUIDs f' sop' ser', .save f _ sop ser _ => f' == f && sop' == sop && ser' == ser
  | _, .save _ _ _ _ _ => false
  | _, _ => true

/-- `adjOK` along every consecutive pair. -/
def chainAdjOK : List Ev → Bool
  | e₁ :: e₂ :: rest => adjOK e₁ e₂ && chainAdjOK (e₂ :: rest)
  | _ => true

/-- Is this event allowed to open a block (i.e. is it not a UID overwrite or
a save, which may only appear right after their predecessor event)? -/
def evNotMid : Ev → Bool
  | .setUIDs _ _ _ => false
  | .save _ _ _ _ _ => false
  | _ => true

/-- The head of the trace is not a UID overwrite or a save. -/
def headNotMid : List Ev → Bool
  | [] => true
  | e :: _ => evNotMid e

/-- Every save in the trace is immediately preceded by the UID overwrite
that installed exactly the saved identifiers, which is itself immediately
preceded by the encoder call on the same file. -/
def localOrder (t : List Ev) : Bool := headNotMid t && chainAdjOK t

/-- The saves an uninterrupted sequence of `m` iterations of the per-file
loop produces, starting at association index `i` and UID call counter `u`. -/
def saveRange (segFolder name : String) (uid : Nat → String) : Nat → Nat → Nat → List SaveInfo
  | _, _, 0 => []
  | i, u, m + 1 =>
    ⟨pathJoin segFolder name, outPath segFolder name i, uid u, uid (u + 1), u⟩ ::
      saveRange segFolder name uid (i + 1) (u + 2) m

/-! ### Concrete fixtures for witnesses and counterexamples -/

/-- Console line whose text parses as the integer `0`. -/
def line0 : Line := ⟨some 0, "0"⟩

/-- Console line `-1` (parses as an integer). -/
def lineNeg1 : Line := ⟨some (-1), "-1"⟩

/-- Console line `5` (parses as an integer). -/
def line5 : Line := ⟨some 5, "5"⟩

/-- Console line `y`. -/
def lineY : Line := ⟨none, "y"⟩

/-- Console line `n`. -/
def lineN : Line := ⟨none, "n"⟩

/-- A console line that is neither an integer nor `y`/`n`. -/
def lineBad : Line := ⟨none, "foo"⟩

/-- An encoder that always succeeds, returning library-chosen UIDs. -/
def encOk : String → List String → Option LibDs :=
  fun _ _ => some ⟨"1.2.840.10008.lib.sop", "1.2.840.10008.lib.ser"⟩

/-- An encoder that always raises. -/
def encFailing : String → List String → Option LibDs := fun _ _ => none

/-- Saving always succeeds. -/
def diskAlways : String → Bool := fun _ => true

/-- An injective UID stream that never collides with the series UID `"S"`:
call `n` returns `n + 1` copies of `'u'`. -/
def uidU (n : Nat) : String := String.mk (List.replicate (n + 1) 'u')

/-- An injective UID stream whose first value is the empty string: call `n`
returns `n` copies of `'u'`. -/
def uidCex (n : Nat) : String := String.mk (List.replicate n 'u')

/-- A CT header of patient `P1`. -/
def hdr1 : DicomHeader := ⟨"P1", "CT"⟩

/-- A PET header of patient `P2`. -/
def hdr2 : DicomHeader := ⟨"P2", "PET"⟩

/-- A single series with UID `"S"`. -/
def ser1 : RawSeries := ⟨"S", ["f1"], hdr1⟩

/-- A series whose UID is the empty string. -/
def serEmptyId : RawSeries := ⟨"", ["f1"], hdr1⟩

/-- One-series environment with the `uidU` stream. -/
def envW : WEnv := ⟨[ser1], encOk, diskAlways, uidU⟩

/-- Environment whose single series UID collides with `uidCex 0`. -/
def envCex : WEnv := ⟨[serEmptyId], encOk, diskAlways, uidCex⟩

/-- Environment over an empty DICOM folder. -/
def envNoSeries : WEnv := ⟨[], encOk, diskAlways, uidU⟩

/-- Two series belonging to two different patients. -/
def series2P : List RawSeries := [⟨"S1", ["f1"], hdr1⟩, ⟨"S2", ["f2"], hdr2⟩]

/-- Environment over the two-patient folder. -/
def envTwoP : WEnv := ⟨series2P, encOk, diskAlways, uidU⟩

/-- All `write` flags off. -/
def cfgPlain : WCfg := ⟨false, false, false⟩

/-- Only `delete_itk_segmentation_files` on. -/
def cfgDelete : WCfg := ⟨false, true, false⟩

/-- Only `enable_multi_images_association` on. -/
def cfgMulti : WCfg := ⟨false, false, true⟩

/-- A two-element displayed series list. -/
def sdlAB : List SeriesData := [⟨"CT", ["f1"], hdr1⟩, ⟨"PET", ["f2"], hdr2⟩]

/-- A 2-voxel label mask with values 5 and 7 and pixel type 3. -/
def cmask : SITKImage := ⟨2, fun j => if j = 0 then 5 else 7, 3⟩

/-- A 3-voxel reference image with pixel type 1. -/
def cimg : SITKImage := ⟨3, fun _ => 0, 1⟩

/-- A geometry map sending output voxels 0 and 1 to input voxels 0 and 1 and
leaving voxel 2 outside the mask extent. -/
def cgeom : Nat → Option Nat := fun v => if v < 2 then some v else none

/-- The trace component of a per-file loop result. -/
def StepRes.trace : StepRes → List Ev
  | .blocked t => t
  | .raised _ t => t
  | .done t _ _ => t

/-! ## Theorems -/

/-! ### Supporting lemmas for claim C9 -/

theorem isPrefL_length : ∀ p s : List Char, isPrefL p s = true → p.length ≤ s.length
  | [], _, _ => Nat.zero_le _
  | _ :: _, [], h => by simp [isPrefL] at h
  | a :: as, b :: bs, h => by
    simp only [isPrefL, Bool.and_eq_true] at h
    have := isPrefL_length as bs h.2
    simpa using this

theorem strFind_le : ∀ (p f : List Char) (i : Nat), strFind p f = some i → i + p.length ≤ f.length := by
  intro p f
  induction f with
  | nil =>
    intro i h
    simp only [strFind] at h
    split at h
    · cases h
      simp_all [List.isEmpty_iff]
    · cases h
  | cons c t ih =>
    intro i h
    simp only [strFind] at h
    split at h
    · cases h
      simpa using isPrefL_length p (c :: t) (by assumption)
    · rcases Option.map_eq_some'.mp h with ⟨i', hi', rfl⟩
      have := ih i' hi'
      simp only [List.length_cons]
      omega

theorem strFind_first : ∀ (p f : List Char) (i : Nat), strFind p f = some i →
    isPrefL p (f.drop i) = true ∧ ∀ j, j < i → isPrefL p (f.drop j) = false := by
  intro p f
  induction f with
  | nil =>
    intro i h
    simp only [strFind] at h
    split at h
    · cases h
      refine ⟨?_, fun j hj => absurd hj (by omega)⟩
      simp_all [List.isEmpty_iff, isPrefL]
    · cases h
  | cons c t ih =>
    intro i h
    simp only [strFind] at h
    split at h
    · cases h
      exact ⟨by assumption, fun j hj => absurd hj (by omega)⟩
    · rcases Option.map_eq_some'.mp h with ⟨i', hi', rfl⟩
      rcases ih i' hi' with ⟨h1, h2⟩
      refine ⟨by simpa using h1, ?_⟩
      intro j hj
      cases j with
      | zero => simpa using Bool.of_not_eq_true (by assumption)
      | succ j' => simpa using h2 j' (by omega)

/-- C9: `SegmentationFilenamePatternsMatcher.matches` marks a filename `f` as
a match exactly when the patient id occurs in `f` and the character
immediately following the first occurrence (at index
`f.find(p) + len(p)`) exists and is not a decimal digit; and the
computation raises `IndexError` exactly when the first occurrence of the
patient id ends exactly at the end of `f`, instead of returning a result. -/
theorem matchesOne_spec (p f : List Char) :
    (matchesOne p f = .ok true ↔
      ∃ i c, strFind p f = some i ∧ f[i + p.length]? = some c ∧ c.isDigit = false) ∧
    (matchesOne p f = .indexError ↔ ∃ i, strFind p f = some i ∧ i + p.length = f.length) := by
  unfold matchesOne
  cases h : strFind p f with
  | none =>
    constructor
    · simp [h]
    · simp [h]
  | some i =>
    cases hg : f[i + p.length]? with
    | some c =>
      constructor
      · simp only [h, hg]
        constructor
        · intro hok
          refine ⟨i, c, rfl, hg, ?_⟩
          cases hd : c.isDigit <;> simp_all
        · rintro ⟨i', c', hi', hc', hd⟩
          cases hi'
          rw [hg] at hc'
          cases hc'
          simp [hd]
      · simp only [h, hg]
        constructor
        · intro hcontra
          cases hcontra
        · rintro ⟨i', hi', hlen⟩
          cases hi'
          have hnone : f[i + p.length]? = none := List.getElem?_eq_none (le_of_eq hlen.symm)
          rw [hg] at hnone
          cases hnone
    | none =>
      have hlen : i + p.length = f.length :=
        le_antisymm (strFind_le p f i h) (List.getElem?_eq_none_iff.mp hg)
      constructor
      · simp [h, hg]
      · simp only [h, hg]
        constructor
        · intro _
          exact ⟨i, rfl, hlen⟩
        · intro _
          trivial

/-! ### Claim C10: `PathGenerator` iteration -/

theorem runSends_drop : ∀ (m k : Nat) (paths : List String), k + m = paths.length →
    0 < paths.length →
    runSends ⟨paths, k⟩ (m + 1) = (paths.drop k).map Except.ok ++ [Except.error GenErr.stopIteration] := by
  intro m
  induction m with
  | zero =>
    intro k paths hk hpos
    have hcond : k ≠ 0 ∧ k = paths.length := by omega
    show runSends ⟨paths, k⟩ 1 = _
    unfold runSends PathGenerator.send
    rw [if_pos hcond]
    rw [hcond.2, List.drop_length]
    simp [runSends]
  | succ m ih =>
    intro k paths hk hpos
    have hklt : k < paths.length := by omega
    have hcond : ¬(k ≠ 0 ∧ k = paths.length) := by omega
    have hget : paths.get? k = some paths[k] := by
      rw [List.get?_eq_getElem?]
      exact List.getElem?_eq_getElem hklt
    have hsend : PathGenerator.send ⟨paths, k⟩ = .ok (paths[k], (⟨paths, k + 1⟩ : PathGenerator)) := by
      unfold PathGenerator.send
      rw [if_neg hcond, hget]
    show runSends ⟨paths, k⟩ (m + 1 + 1) = _
    unfold runSends
    simp only [hsend]
    have hdrop : paths.drop k = paths[k] :: paths.drop (k + 1) :=
      List.drop_eq_getElem_cons hklt
    rw [ih (k + 1) paths (by omega) hpos, hdrop, List.map_cons, List.cons_append]

/-- C10 counterexample: over an empty patients folder (`n = 0`), the first
call to `send` raises `IndexError`, not `StopIteration` — the length check
is skipped while `current_index = 0`, and the list indexing fails. -/
theorem pathGenerator_send_empty_counterexample :
    PathGenerator.send ⟨[], 0⟩ = .error GenErr.indexError ∧
    GenErr.indexError ≠ GenErr.stopIteration := by
  constructor
  · rfl
  · decide

/-- C10 (amended): for a patients folder whose listing has `n ≥ 1` entries,
the generator yields exactly the `n` folder paths in listing order and the
`(n+1)`-th call to `send` raises `StopIteration`; for `n = 0` the first call
raises `IndexError` instead (see the counterexample). -/
theorem pathGenerator_send_spec (paths : List String) (h : paths ≠ []) :
    runSends ⟨paths, 0⟩ (paths.length + 1) =
      paths.map Except.ok ++ [Except.error GenErr.stopIteration] := by
  have := runSends_drop paths.length 0 paths (by omega) (List.length_pos.mpr h)
  simpa using this

/-- C10 witness: the amended statement evaluated on a two-entry folder. -/
theorem pathGenerator_send_spec_witness :
    runSends ⟨["p1", "p2"], 0⟩ 3 =
      [Except.ok "p1", Except.ok "p2", Except.error GenErr.stopIteration] := by
  have h := pathGenerator_send_spec ["p1", "p2"] (by decide)
  simpa using h

/-! ### Claim C4: nearest-neighbour resampling -/

/-- C4: `_resample_mask` produces a volume on the reference grid (same voxel
count), with output pixel type equal to the mask's pixel type, and — because
the interpolator is nearest-neighbour with default fill value zero — every
voxel value of the result belongs to the set of values present in the
original mask together with zero. -/
theorem resampleMask_label_preservation (mask image : SITKImage) (geom : Nat → Option Nat)
    (hg : ∀ v j, geom v = some j → j < mask.size) :
    (resampleMask mask image geom).size = image.size ∧
    (resampleMask mask image geom).pixelID = mask.pixelID ∧
    ∀ v, v < image.size →
      (resampleMask mask image geom).pixel v ∈ (0 : Int) :: (List.range mask.size).map mask.pixel := by
  refine ⟨rfl, rfl, ?_⟩
  intro v _
  show (match geom v with
    | some j => mask.pixel j
    | none => (0 : Int)) ∈ (0 : Int) :: (List.range mask.size).map mask.pixel
  cases hgv : geom v with
  | none => simp
  | some j =>
    have hj := hg v j hgv
    simp only [List.mem_cons, List.mem_map]
    exact Or.inr ⟨j, List.mem_range.mpr hj, rfl⟩

/-- C4 witness: the theorem applied to a concrete 2-voxel mask, 3-voxel
reference image and geometry map whose voxel 2 falls outside the mask. -/
theorem resampleMask_label_preservation_witness :
    (resampleMask cmask cimg cgeom).size = cimg.size ∧
    (resampleMask cmask cimg cgeom).pixel 2 ∈ (0 : Int) :: (List.range cmask.size).map cmask.pixel := by
  have hg : ∀ v j, cgeom v = some j → j < cmask.size := by
    intro v j hj
    unfold cgeom at hj
    split at hj
    · cases hj
      simpa [cmask] using (by assumption : v < 2)
    · cases hj
  have h := resampleMask_label_preservation cmask cimg cgeom hg
  exact ⟨h.1, h.2.2 2 (by norm_num [cimg])⟩

/-! ### Claim C8: the y/n continuation prompt -/

/-- C8: `is_segmentation_association_process_complete` accepts only a
literal `"y"` or `"n"` answer, re-prompting on any other input without
aborting (it returns an answer exactly when some input line is a literal
`"y"` or `"n"`); the accepted answer is the first such line, and the
returned flag is `true` exactly when that answer is `"n"` (so `false`
exactly when it is `"y"`) — the case normalisation `answer.lower()` happens
only on the terminal branch, where the answer is already lowercase. -/
theorem isSegAssocProcessComplete_spec (inputs : List Line) :
    ((isSegAssocProcessComplete inputs).isSome ↔ ∃ l ∈ inputs, l.text = "y" ∨ l.text = "n") ∧
    (isSegAssocProcessComplete inputs).map Prod.fst =
      (inputs.find? fun l => l.text == "y" || l.text == "n").map fun l => l.text == "n" := by
  induction inputs with
  | nil => simp [isSegAssocProcessComplete]
  | cons l rest ih =>
    by_cases h : l.text = "y" ∨ l.text = "n"
    · have hpred : (l.text == "y" || l.text == "n") = true := by
        rcases h with h | h <;> simp [h]
      have hval : (["n"].contains (pyLower l.text)) = (l.text == "n") := by
        rcases h with h | h <;> rw [h] <;> decide
      constructor
      · simp only [isSegAssocProcessComplete, if_pos h, Option.isSome_some, true_iff]
        exact ⟨l, List.mem_cons_self l rest, h⟩
      · rw [List.find?_cons_of_pos rest hpred]
        simp only [isSegAssocProcessComplete, if_pos h, Option.map_some', hval]
    · have hpred : (l.text == "y" || l.text == "n") = false := by
        push_neg at h
        simp [h.1, h.2]
      constructor
      · simp only [isSegAssocProcessComplete, if_neg h]
        rw [ih.1]
        constructor
        · rintro ⟨l', hl', hyn⟩
          exact ⟨l', List.mem_cons_of_mem _ hl', hyn⟩
        · rintro ⟨l', hl', hyn⟩
          rcases List.mem_cons.mp hl' with rfl | hl'
          · exact absurd hyn h
          · exact ⟨l', hl', hyn⟩
      · rw [List.find?_cons_of_neg rest (by simp [hpred])]
        simp only [isSegAssocProcessComplete, if_neg h]
        exact ih.2

/-! ### Claim C3: the series-selection loop -/

theorem pyListGet_mem {α : Type} (l : List α) (k : Int) (a : α) (h : pyListGet l k = some a) :
    a ∈ l := by
  simp only [pyListGet] at h
  split at h <;> split at h <;> first
    | exact List.get?_mem h
    | cases h

/-- C3 counterexample: with two displayed series (valid indices 0 and 1 per
the claim), the operator input `-1` is an integer outside `0..N-1`, yet the
loop accepts it without reporting an index error and returns the last
series, by Python negative indexing. -/
theorem selectSeriesLoop_counterexample :
    selectSeriesLoop sdlAB [lineNeg1] = some (⟨"PET", ["f2"], hdr2⟩, [], []) ∧
    (-1 : Int) < 0 ∧ sdlAB.length = 2 := by
  refine ⟨?_, by norm_num, by decide⟩
  decide

/-- C3 (amended): the selection loop returns a chosen series only once the
operator supplies a line that parses as an integer `k` that is a valid
Python index into the displayed list of `N` series, i.e. `-N ≤ k ≤ N - 1`
(negative values select from the end); on a non-integer input it reports a
value error and re-prompts, on an integer outside that range it reports an
index error and re-prompts, and it never aborts: it succeeds exactly when
some input is valid, the reports before acceptance are exactly the error
classes of the rejected inputs in order, the accepted line is the first
valid one, and the remaining input is everything after it. -/
theorem selectSeriesLoop_spec (sdl : List SeriesData) (inputs : List Line) :
    ((selectSeriesLoop sdl inputs).isSome ↔ ∃ l ∈ inputs, classifySel sdl l = none) ∧
    ∀ sd rs st, selectSeriesLoop sdl inputs = some (sd, rs, st) →
      sd ∈ sdl ∧
      rs = (inputs.takeWhile fun l => (classifySel sdl l).isSome).filterMap (classifySel sdl) ∧
      ((inputs.get? rs.length).bind Line.parseInt).bind (pyListGet sdl) = some sd ∧
      st = inputs.drop (rs.length + 1) := by
  induction inputs with
  | nil =>
    constructor
    · simp [selectSeriesLoop]
    · intro sd rs st h
      cases h
  | cons l rest ih =>
    cases hp : l.parseInt with
    | none =>
      have hcl : classifySel sdl l = some .valueError := by simp [classifySel, hp]
      constructor
      · simp only [selectSeriesLoop, hp, Option.isSome_map']
        rw [ih.1]
        constructor
        · rintro ⟨l', hl', hnone⟩
          exact ⟨l', List.mem_cons_of_mem _ hl', hnone⟩
        · rintro ⟨l', hl', hnone⟩
          rcases List.mem_cons.mp hl' with rfl | hl'
          · rw [hcl] at hnone
            cases hnone
          · exact ⟨l', hl', hnone⟩
      · intro sd rs st h
        simp only [selectSeriesLoop, hp] at h
        rcases Option.map_eq_some'.mp h with ⟨⟨sd', rs', st'⟩, hrec, heq⟩
        cases heq
        rcases (ih.2 sd' rs' st' hrec) with ⟨hmem, hrs, hget, hst⟩
        refine ⟨hmem, ?_, ?_, ?_⟩
        · rw [List.takeWhile_cons_of_pos (by simp [hcl])]
          rw [List.filterMap_cons_some hcl]
          rw [hrs]
        · simpa using hget
        · simpa using hst
    | some k =>
      cases hg : pyListGet sdl k with
      | some sd0 =>
        have hcl : classifySel sdl l = none := by simp [classifySel, hp, hg]
        constructor
        · simp only [selectSeriesLoop, hp, hg, Option.isSome_some, true_iff]
          exact ⟨l, List.mem_cons_self l rest, hcl⟩
        · intro sd rs st h
          simp only [selectSeriesLoop, hp, hg, Option.some_inj] at h
          obtain ⟨rfl, rfl, rfl⟩ : sd0 = sd ∧ [] = rs ∧ rest = st := by
            refine ⟨congrArg Prod.fst h, ?_, ?_⟩
            · exact congrArg (fun x => x.2.1) h
            · exact congrArg (fun x => x.2.2) h
          refine ⟨pyListGet_mem sdl k sd0 hg, ?_, ?_, ?_⟩
          · rw [List.takeWhile_cons_of_neg (by simp [hcl])]
            simp
          · simp [hp, hg]
          · simp
      | none =>
        have hcl : classifySel sdl l = some .indexError := by simp [classifySel, hp, hg]
        constructor
        · simp only [selectSeriesLoop, hp, hg, Option.isSome_map']
          rw [ih.1]
          constructor
          · rintro ⟨l', hl', hnone⟩
            exact ⟨l', List.mem_cons_of_mem _ hl', hnone⟩
          · rintro ⟨l', hl', hnone⟩
            rcases List.mem_cons.mp hl' with rfl | hl'
            · rw [hcl] at hnone
              cases hnone
            · exact ⟨l', hl', hnone⟩
        · intro sd rs st h
          simp only [selectSeriesLoop, hp, hg] at h
          rcases Option.map_eq_some'.mp h with ⟨⟨sd', rs', st'⟩, hrec, heq⟩
          cases heq
          rcases (ih.2 sd' rs' st' hrec) with ⟨hmem, hrs, hget, hst⟩
          refine ⟨hmem, ?_, ?_, ?_⟩
          · rw [List.takeWhile_cons_of_pos (by simp [hcl])]
            rw [List.filterMap_cons_some hcl]
            rw [hrs]
          · simpa using hget
          · simpa using hst

/-- C3 witness: the amended statement applied to the two-series list and an
input sequence `foo`, `5`, `0` — a value error, an index error, then the
accepted valid index `0`. -/
theorem selectSeriesLoop_spec_witness :
    (⟨"CT", ["f1"], hdr1⟩ : SeriesData) ∈ sdlAB ∧
    [SelReport.valueError, SelReport.indexError] =
      (([lineBad, line5, line0].takeWhile fun l => (classifySel sdlAB l).isSome).filterMap
        (classifySel sdlAB)) ∧
    ((([lineBad, line5, line0].get? 2).bind Line.parseInt).bind (pyListGet sdlAB)) =
      some ⟨"CT", ["f1"], hdr1⟩ ∧
    ([] : List Line) = [lineBad, line5, line0].drop 3 := by
  have h := (selectSeriesLoop_spec sdlAB [lineBad, line5, line0]).2
    ⟨"CT", ["f1"], hdr1⟩ [SelReport.valueError, SelReport.indexError] [] (by decide)
  exact h

/-! ### Per-iteration facts about the `write` model -/

theorem savesOf_append (t₁ t₂ : List Ev) : savesOf (t₁ ++ t₂) = savesOf t₁ ++ savesOf t₂ :=
  List.filterMap_append t₁ t₂ _

theorem savesOf_resampleEvs (cfg : WCfg) (sp : String) : savesOf (resampleEvs cfg sp) = [] := by
  unfold resampleEvs
  split <;> rfl

theorem mem_resampleEvs {cfg : WCfg} {sp : String} {ev : Ev} (h : ev ∈ resampleEvs cfg sp) :
    ev = Ev.resample sp := by
  unfold resampleEvs at h
  split at h
  · simpa using h
  · cases h

theorem seriesIds_err (dir : String) (series : List RawSeries) (e : RunErr)
    (h : seriesIds dir series = .error e) : e = .noSeriesFound dir := by
  unfold seriesIds at h
  split at h
  · injection h with h'
    exact h'.symm
  · cases h

theorem seriesDataList_err (dir : String) (series : List RawSeries) (e : RunErr)
    (h : seriesDataList dir series = .error e) :
    e = .noSeriesFound dir ∨ ∃ uids, e = .multiPatient uids := by
  unfold seriesDataList at h
  split at h
  case h_1 e' heq =>
    injection h with h'
    subst h'
    exact Or.inl (seriesIds_err _ _ _ heq)
  case h_2 ids heq =>
    split at h
    · injection h with h'
      exact Or.inr ⟨_, h'.symm⟩
    · cases h

theorem getDicom_err (dir : String) (series : List RawSeries) (stream : List Line) (e : RunErr)
    (h : getDicomSeriesPathsForGivenSegmentation dir series stream = .error e) :
    e = .noSeriesFound dir ∨ ∃ uids, e = .multiPatient uids := by
  unfold getDicomSeriesPathsForGivenSegmentation at h
  split at h
  case h_1 e' heq =>
    injection h with h'
    subst h'
    exact seriesDataList_err dir series _ heq
  case h_2 => cases h

theorem localOrder_block1 (cfg : WCfg) (sp : String) (imgs : List String) :
    localOrder (resampleEvs cfg sp ++ [Ev.encode sp imgs]) = true := by
  unfold resampleEvs
  split <;> simp [localOrder, headNotMid, evNotMid, chainAdjOK, adjOK]

theorem localOrder_block2 (cfg : WCfg) (sp : String) (imgs : List String) (sop ser : String) :
    localOrder (resampleEvs cfg sp ++ [Ev.encode sp imgs, Ev.setUIDs sp sop ser]) = true := by
  unfold resampleEvs
  split <;> simp [localOrder, headNotMid, evNotMid, chainAdjOK, adjOK]

theorem localOrder_block3 (cfg : WCfg) (sp : String) (imgs : List String) (sop ser p : String)
    (c : Nat) :
    localOrder (resampleEvs cfg sp ++
      [Ev.encode sp imgs, Ev.setUIDs sp sop ser, Ev.save sp p sop ser c]) = true := by
  unfold resampleEvs
  split <;> simp [localOrder, headNotMid, evNotMid, chainAdjOK, adjOK]

/-- Case analysis of one iteration of the per-file loop: a raised iteration
emits no save and no delete, all its events concern this file, its events
are locally ordered, and its error names this file when it is an encode or
save failure; a blocked iteration emits nothing; a saved iteration emits
exactly the optional resample, the encode, the UID overwrite with the two
fresh `generate_uid` values, and the save of the indexed output path. -/
theorem iterOnce_spec (cfg : WCfg) (dir segFolder : String) (env : WEnv) (name : String)
    (i u : Nat) (stream : List Line) :
    match iterOnce cfg dir segFolder env name i u stream with
    | .raisedE e evs => savesOf evs = [] ∧ (∀ g, Ev.delete g ∉ evs) ∧
        (∀ ev ∈ evs, ev.evFile = pathJoin segFolder name) ∧ localOrder evs = true ∧
        (∀ f, e = .encodeFail f → f = pathJoin segFolder name) ∧
        (∀ f p, e = .saveFail f p → f = pathJoin segFolder name)
    | .blockedE evs => evs = []
    | .savedE evs _stream' =>
        ∃ imgs, evs = resampleEvs cfg (pathJoin segFolder name) ++
          [Ev.encode (pathJoin segFolder name) imgs,
           Ev.setUIDs (pathJoin segFolder name) (env.uid u) (env.uid (u + 1)),
           Ev.save (pathJoin segFolder name) (outPath segFolder name i)
             (env.uid u) (env.uid (u + 1)) u] := by
  unfold iterOnce
  cases h1 : getDicomSeriesPathsForGivenSegmentation dir env.series stream with
  | error e =>
    refine ⟨rfl, by simp, by simp, by simp [localOrder, headNotMid, chainAdjOK], ?_, ?_⟩
    · intro f hf
      rcases getDicom_err dir env.series stream e h1 with h | ⟨uids, h⟩ <;> subst h <;> cases hf
    · intro f p hf
      rcases getDicom_err dir env.series stream e h1 with h | ⟨uids, h⟩ <;> subst h <;> cases hf
  | ok o =>
    cases o with
    | none => rfl
    | some pr =>
      cases pr with
      | mk imgs st' =>
        dsimp only
        cases h2 : env.enc (pathJoin segFolder name) imgs with
        | none =>
          refine ⟨?_, ?_, ?_, localOrder_block1 cfg _ imgs, ?_, ?_⟩
          · rw [savesOf_append, savesOf_resampleEvs]
            rfl
          · intro g hg
            rcases List.mem_append.mp hg with hg | hg
            · cases mem_resampleEvs hg
            · simp at hg
          · intro ev hev
            rcases List.mem_append.mp hev with hev | hev
            · rw [mem_resampleEvs hev]
              rfl
            · simp only [List.mem_singleton] at hev
              rw [hev]
              rfl
          · intro f hf
            cases hf
            rfl
          · intro f p hf
            cases hf
        | some ds =>
          dsimp only
          cases h3 : env.diskOk (outPath segFolder name i) with
          | true =>
            rw [if_pos rfl]
            exact ⟨imgs, rfl⟩
          | false =>
            rw [if_neg (by decide)]
            refine ⟨?_, ?_, ?_, localOrder_block2 cfg _ imgs _ _, ?_, ?_⟩
            · rw [savesOf_append, savesOf_resampleEvs]
              rfl
            · intro g hg
              rcases List.mem_append.mp hg with hg | hg
              · cases mem_resampleEvs hg
              · simp at hg
            · intro ev hev
              rcases List.mem_append.mp hev with hev | hev
              · rw [mem_resampleEvs hev]
                rfl
              · rcases List.mem_cons.mp hev with hev | hev
                · rw [hev]
                  rfl
                · simp only [List.mem_singleton] at hev
                  rw [hev]
                  rfl
            · intro f hf
              cases hf
            · intro f p hf
              cases hf
              rfl

theorem savesOf_savedBlock (cfg : WCfg) (sp : String) (imgs : List String) (sop ser p : String)
    (c : Nat) :
    savesOf (resampleEvs cfg sp ++ [Ev.encode sp imgs, Ev.setUIDs sp sop ser, Ev.save sp p sop ser c])
      = [⟨sp, p, sop, ser, c⟩] := by
  rw [savesOf_append, savesOf_resampleEvs]
  rfl

theorem savesOf_delBlock (b : Bool) (sp : String) :
    savesOf (if b then [Ev.delete sp] else []) = [] := by
  cases b <;> rfl

/-- The saves of one file's loop form an uninterrupted save range: starting
from association index `i` and UID counter `u`, some number `m` of
iterations each saved once, and on normal completion the final UID counter
is `u + 2 m`. -/
theorem fileLoop_saves (cfg : WCfg) (dir segFolder : String) (env : WEnv) (name : String) :
    ∀ fuel i u stream,
    (∀ e t, fileLoop cfg dir segFolder env name fuel i u stream = .raised e t →
      ∃ m, savesOf t = saveRange segFolder name env.uid i u m) ∧
    (∀ t, fileLoop cfg dir segFolder env name fuel i u stream = .blocked t →
      ∃ m, savesOf t = saveRange segFolder name env.uid i u m) ∧
    (∀ t s' u', fileLoop cfg dir segFolder env name fuel i u stream = .done t s' u' →
      ∃ m, savesOf t = saveRange segFolder name env.uid i u m ∧ u' = u + 2 * m) := by
  intro fuel
  induction fuel with
  | zero =>
    intro i u stream
    refine ⟨?_, ?_, ?_⟩
    · intro e t h
      simp only [fileLoop] at h
      cases h
    · intro t h
      simp only [fileLoop, StepRes.blocked.injEq] at h
      exact ⟨0, by rw [← h]; rfl⟩
    · intro t s' u' h
      simp only [fileLoop] at h
      cases h
  | succ fuel ih =>
    intro i u stream
    have hit := iterOnce_spec cfg dir segFolder env name i u stream
    cases hio : iterOnce cfg dir segFolder env name i u stream with
    | raisedE e0 evs =>
      rw [hio] at hit
      refine ⟨?_, ?_, ?_⟩
      · intro e t h
        simp only [fileLoop, hio, StepRes.raised.injEq] at h
        exact ⟨0, by rw [← h.2, hit.1]; rfl⟩
      · intro t h
        simp only [fileLoop, hio] at h
        cases h
      · intro t s' u' h
        simp only [fileLoop, hio] at h
        cases h
    | blockedE evs =>
      rw [hio] at hit
      subst hit
      refine ⟨?_, ?_, ?_⟩
      · intro e t h
        simp only [fileLoop, hio] at h
        cases h
      · intro t h
        simp only [fileLoop, hio, StepRes.blocked.injEq] at h
        exact ⟨0, by rw [← h]; rfl⟩
      · intro t s' u' h
        simp only [fileLoop, hio] at h
        cases h
    | savedE evs st' =>
      rw [hio] at hit
      obtain ⟨imgs, hevs⟩ := hit
      have hsaves : savesOf evs = [⟨pathJoin segFolder name, outPath segFolder name i,
          env.uid u, env.uid (u + 1), u⟩] := by
        rw [hevs]
        exact savesOf_savedBlock cfg _ imgs _ _ _ u
      refine ⟨?_, ?_, ?_⟩
      · intro e t h
        simp only [fileLoop, hio] at h
        split at h
        · cases hc : isSegAssocProcessComplete st' with
          | none =>
            simp only [hc] at h
            cases h
          | some pr =>
            obtain ⟨complete, st''⟩ := pr
            simp only [hc] at h
            cases complete with
            | true =>
              rw [if_pos rfl] at h
              cases h
            | false =>
              rw [if_neg (by decide)] at h
              cases hrec : fileLoop cfg dir segFolder env name fuel (i + 1) (u + 2) st'' with
              | raised e' t' =>
                simp only [hrec] at h
                injection h with he ht
                obtain ⟨m, hm⟩ := ((ih (i + 1) (u + 2) st'').1 e' t' hrec)
                refine ⟨m + 1, ?_⟩
                rw [← ht, savesOf_append, hsaves, hm]
                rfl
              | blocked t' =>
                simp only [hrec] at h
                cases h
              | done t' s'' u'' =>
                simp only [hrec] at h
                cases h
        · cases h
      · intro t h
        simp only [fileLoop, hio] at h
        split at h
        · cases hc : isSegAssocProcessComplete st' with
          | none =>
            simp only [hc] at h
            injection h with ht
            refine ⟨1, ?_⟩
            rw [← ht, hsaves]
            rfl
          | some pr =>
            obtain ⟨complete, st''⟩ := pr
            simp only [hc] at h
            cases complete with
            | true =>
              rw [if_pos rfl] at h
              cases h
            | false =>
              rw [if_neg (by decide)] at h
              cases hrec : fileLoop cfg dir segFolder env name fuel (i + 1) (u + 2) st'' with
              | raised e' t' =>
                simp only [hrec] at h
                cases h
              | blocked t' =>
                simp only [hrec] at h
                injection h with ht
                obtain ⟨m, hm⟩ := ((ih (i + 1) (u + 2) st'').2.1 t' hrec)
                refine ⟨m + 1, ?_⟩
                rw [← ht, savesOf_append, hsaves, hm]
                rfl
              | done t' s'' u'' =>
                simp only [hrec] at h
                cases h
        · cases h
      · intro t s' u' h
        simp only [fileLoop, hio] at h
        split at h
        · cases hc : isSegAssocProcessComplete st' with
          | none =>
            simp only [hc] at h
            cases h
          | some pr =>
            obtain ⟨complete, st''⟩ := pr
            simp only [hc] at h
            cases complete with
            | true =>
              rw [if_pos rfl] at h
              injection h with ht hs hu
              refine ⟨1, ?_, ?_⟩
              · rw [← ht, savesOf_append, hsaves, savesOf_delBlock]
                rfl
              · omega
            | false =>
              rw [if_neg (by decide)] at h
              cases hrec : fileLoop cfg dir segFolder env name fuel (i + 1) (u + 2) st'' with
              | raised e' t' =>
                simp only [hrec] at h
                cases h
              | blocked t' =>
                simp only [hrec] at h
                cases h
              | done t' s'' u'' =>
                simp only [hrec] at h
                injection h with ht hs hu
                obtain ⟨m, hm, hu'⟩ := ((ih (i + 1) (u + 2) st'').2.2 t' s'' u'' hrec)
                refine ⟨m + 1, ?_, ?_⟩
                · rw [← ht, savesOf_append, hsaves, hm]
                  rfl
                · omega
        · injection h with ht hs hu
          refine ⟨1, ?_, ?_⟩
          · rw [← ht, savesOf_append, hsaves, savesOf_delBlock]
            rfl
          · omega

theorem adjOK_of_notMid (e₁ e₂ : Ev) (h : evNotMid e₂ = true) : adjOK e₁ e₂ = true := by
  cases e₂ with
  | setUIDs a b c => simp [evNotMid] at h
  | save a b c d f => simp [evNotMid] at h
  | resample a => cases e₁ <;> rfl
  | encode a b => cases e₁ <;> rfl
  | delete a => cases e₁ <;> rfl

theorem headNotMid_append (t₁ t₂ : List Ev) (h₁ : headNotMid t₁ = true)
    (h₂ : headNotMid t₂ = true) : headNotMid (t₁ ++ t₂) = true := by
  cases t₁ with
  | nil => simpa using h₂
  | cons e r => simpa [headNotMid] using h₁

theorem chainAdjOK_append (t₁ t₂ : List Ev) (h₁ : chainAdjOK t₁ = true)
    (h₂ : chainAdjOK t₂ = true) (hh : headNotMid t₂ = true) :
    chainAdjOK (t₁ ++ t₂) = true := by
  induction t₁ with
  | nil => simpa using h₂
  | cons e rest ihr =>
    cases rest with
    | nil =>
      cases t₂ with
      | nil => rfl
      | cons e₂ r₂ =>
        have hadj : adjOK e e₂ = true := adjOK_of_notMid e e₂ (by simpa [headNotMid] using hh)
        simp only [List.cons_append, List.nil_append, chainAdjOK, hadj, Bool.true_and]
        exact h₂
    | cons e' rest' =>
      have h₁' : adjOK e e' = true ∧ chainAdjOK (e' :: rest') = true := by
        simpa [chainAdjOK, Bool.and_eq_true] using h₁
      have hr := ihr h₁'.2
      simp only [List.cons_append] at hr ⊢
      show (adjOK e e' && chainAdjOK (e' :: (rest' ++ t₂))) = true
      rw [h₁'.1]
      simpa using hr

theorem localOrder_append (t₁ t₂ : List Ev) (h₁ : localOrder t₁ = true)
    (h₂ : localOrder t₂ = true) : localOrder (t₁ ++ t₂) = true := by
  unfold localOrder at h₁ h₂ ⊢
  rw [Bool.and_eq_true] at h₁ h₂
  rw [Bool.and_eq_true]
  exact ⟨headNotMid_append t₁ t₂ h₁.1 h₂.1, chainAdjOK_append t₁ t₂ h₁.2 h₂.2 h₂.1⟩

theorem localOrder_delBlock (b : Bool) (sp : String) :
    localOrder (if b then [Ev.delete sp] else []) = true := by
  cases b <;> rfl

theorem mem_savedBlock {cfg : WCfg} {sp : String} {imgs : List String} {sop ser p : String}
    {c : Nat} {ev : Ev}
    (h : ev ∈ resampleEvs cfg sp ++
      [Ev.encode sp imgs, Ev.setUIDs sp sop ser, Ev.save sp p sop ser c]) :
    ev = Ev.resample sp ∨ ev = Ev.encode sp imgs ∨ ev = Ev.setUIDs sp sop ser ∨
      ev = Ev.save sp p sop ser c := by
  rcases List.mem_append.mp h with h | h
  · exact Or.inl (mem_resampleEvs h)
  · rcases List.mem_cons.mp h with h | h
    · exact Or.inr (Or.inl h)
    · rcases List.mem_cons.mp h with h | h
      · exact Or.inr (Or.inr (Or.inl h))
      · simp only [List.mem_singleton] at h
        exact Or.inr (Or.inr (Or.inr h))

theorem savedBlock_purity (cfg : WCfg) (sp : String) (imgs : List String) (sop ser p : String)
    (c : Nat) :
    ∀ ev ∈ resampleEvs cfg sp ++
      [Ev.encode sp imgs, Ev.setUIDs sp sop ser, Ev.save sp p sop ser c],
      ev.evFile = sp := by
  intro ev hev
  rcases mem_savedBlock hev with h | h | h | h <;> rw [h] <;> rfl

theorem savedBlock_noDelete (cfg : WCfg) (sp : String) (imgs : List String) (sop ser p : String)
    (c : Nat) :
    ∀ g, Ev.delete g ∉ resampleEvs cfg sp ++
      [Ev.encode sp imgs, Ev.setUIDs sp sop ser, Ev.save sp p sop ser c] := by
  intro g hg
  rcases mem_savedBlock hg with h | h | h | h <;> cases h

theorem delBlock_mem {b : Bool} {sp : String} {ev : Ev}
    (h : ev ∈ (if b then [Ev.delete sp] else [])) : ev = Ev.delete sp := by
  cases b
  · cases h
  · simpa using h

/-- Trace discipline of one file's loop: every event concerns this file, the
trace is locally ordered (encode, then UID overwrite, then save), a raised
or blocked loop never deleted the file (and a raised encode/save failure
names this file), and a completed loop deleted the file exactly once, at the
very end, when deletion is configured — and never otherwise. -/
theorem fileLoop_trace_spec (cfg : WCfg) (dir segFolder : String) (env : WEnv) (name : String) :
    ∀ fuel i u stream,
    (∀ e t, fileLoop cfg dir segFolder env name fuel i u stream = .raised e t →
      (∀ ev ∈ t, ev.evFile = pathJoin segFolder name) ∧ localOrder t = true ∧
      (∀ g, Ev.delete g ∉ t) ∧
      (∀ f, e = .encodeFail f → f = pathJoin segFolder name) ∧
      (∀ f p, e = .saveFail f p → f = pathJoin segFolder name)) ∧
    (∀ t, fileLoop cfg dir segFolder env name fuel i u stream = .blocked t →
      (∀ ev ∈ t, ev.evFile = pathJoin segFolder name) ∧ localOrder t = true ∧
      (∀ g, Ev.delete g ∉ t)) ∧
    (∀ t s' u', fileLoop cfg dir segFolder env name fuel i u stream = .done t s' u' →
      (∀ ev ∈ t, ev.evFile = pathJoin segFolder name) ∧ localOrder t = true ∧
      (cfg.deleteItk = true →
        ∃ t₀, t = t₀ ++ [Ev.delete (pathJoin segFolder name)] ∧ ∀ g, Ev.delete g ∉ t₀) ∧
      (cfg.deleteItk = false → ∀ g, Ev.delete g ∉ t)) := by
  intro fuel
  induction fuel with
  | zero =>
    intro i u stream
    refine ⟨?_, ?_, ?_⟩
    · intro e t h
      simp only [fileLoop] at h
      cases h
    · intro t h
      simp only [fileLoop, StepRes.blocked.injEq] at h
      subst h
      exact ⟨by simp, rfl, by simp⟩
    · intro t s' u' h
      simp only [fileLoop] at h
      cases h
  | succ fuel ih =>
    intro i u stream
    have hit := iterOnce_spec cfg dir segFolder env name i u stream
    cases hio : iterOnce cfg dir segFolder env name i u stream with
    | raisedE e0 evs =>
      rw [hio] at hit
      obtain ⟨_, hnodel, hpure, hord, hef, hsf⟩ := hit
      refine ⟨?_, ?_, ?_⟩
      · intro e t h
        simp only [fileLoop, hio, StepRes.raised.injEq] at h
        obtain ⟨he, ht⟩ := h
        subst he
        subst ht
        exact ⟨hpure, hord, hnodel, hef, hsf⟩
      · intro t h
        simp only [fileLoop, hio] at h
        cases h
      · intro t s' u' h
        simp only [fileLoop, hio] at h
        cases h
    | blockedE evs =>
      rw [hio] at hit
      subst hit
      refine ⟨?_, ?_, ?_⟩
      · intro e t h
        simp only [fileLoop, hio] at h
        cases h
      · intro t h
        simp only [fileLoop, hio, StepRes.blocked.injEq] at h
        subst h
        exact ⟨by simp, rfl, by simp⟩
      · intro t s' u' h
        simp only [fileLoop, hio] at h
        cases h
    | savedE evs st' =>
      rw [hio] at hit
      obtain ⟨imgs, hevs⟩ := hit
      have hpure : ∀ ev ∈ evs, ev.evFile = pathJoin segFolder name := by
        rw [hevs]
        exact savedBlock_purity cfg _ imgs _ _ _ u
      have hord : localOrder evs = true := by
        rw [hevs]
        exact localOrder_block3 cfg _ imgs _ _ _ u
      have hnodel : ∀ g, Ev.delete g ∉ evs := by
        rw [hevs]
        exact savedBlock_noDelete cfg _ imgs _ _ _ u
      refine ⟨?_, ?_, ?_⟩
      · intro e t h
        simp only [fileLoop, hio] at h
        split at h
        · cases hc : isSegAssocProcessComplete st' with
          | none =>
            simp only [hc] at h
            cases h
          | some pr =>
            obtain ⟨complete, st''⟩ := pr
            simp only [hc] at h
            cases complete with
            | true =>
              rw [if_pos rfl] at h
              cases h
            | false =>
              rw [if_neg (by decide)] at h
              cases hrec : fileLoop cfg dir segFolder env name fuel (i + 1) (u + 2) st'' with
              | raised e' t' =>
                simp only [hrec] at h
                injection h with he ht
                obtain ⟨hpure', hord', hnodel', hef', hsf'⟩ :=
                  ((ih (i + 1) (u + 2) st'').1 e' t' hrec)
                subst he
                refine ⟨?_, ?_, ?_, hef', hsf'⟩
                · rw [← ht]
                  intro ev hev
                  rcases List.mem_append.mp hev with hev | hev
                  · exact hpure ev hev
                  · exact hpure' ev hev
                · rw [← ht]
                  exact localOrder_append _ _ hord hord'
                · rw [← ht]
                  intro g hg
                  rcases List.mem_append.mp hg with hg | hg
                  · exact hnodel g hg
                  · exact hnodel' g hg
              | blocked t' =>
                simp only [hrec] at h
                cases h
              | done t' s'' u'' =>
                simp only [hrec] at h
                cases h
        · cases h
      · intro t h
        simp only [fileLoop, hio] at h
        split at h
        · cases hc : isSegAssocProcessComplete st' with
          | none =>
            simp only [hc] at h
            injection h with ht
            subst ht
            exact ⟨hpure, hord, hnodel⟩
          | some pr =>
            obtain ⟨complete, st''⟩ := pr
            simp only [hc] at h
            cases complete with
            | true =>
              rw [if_pos rfl] at h
              cases h
            | false =>
              rw [if_neg (by decide)] at h
              cases hrec : fileLoop cfg dir segFolder env name fuel (i + 1) (u + 2) st'' with
              | raised e' t' =>
                simp only [hrec] at h
                cases h
              | blocked t' =>
                simp only [hrec] at h
                injection h with ht
                obtain ⟨hpure', hord', hnodel'⟩ := ((ih (i + 1) (u + 2) st'').2.1 t' hrec)
                refine ⟨?_, ?_, ?_⟩
                · rw [← ht]
                  intro ev hev
                  rcases List.mem_append.mp hev with hev | hev
                  · exact hpure ev hev
                  · exact hpure' ev hev
                · rw [← ht]
                  exact localOrder_append _ _ hord hord'
                · rw [← ht]
                  intro g hg
                  rcases List.mem_append.mp hg with hg | hg
                  · exact hnodel g hg
                  · exact hnodel' g hg
              | done t' s'' u'' =>
                simp only [hrec] at h
                cases h
        · cases h
      · intro t s' u' h
        simp only [fileLoop, hio] at h
        split at h
        · cases hc : isSegAssocProcessComplete st' with
          | none =>
            simp only [hc] at h
            cases h
          | some pr =>
            obtain ⟨complete, st''⟩ := pr
            simp only [hc] at h
            cases complete with
            | true =>
              rw [if_pos rfl] at h
              injection h with ht hs hu
              refine ⟨?_, ?_, ?_, ?_⟩
              · rw [← ht]
                intro ev hev
                rcases List.mem_append.mp hev with hev | hev
                · exact hpure ev hev
                · rw [delBlock_mem hev]
                  rfl
              · rw [← ht]
                exact localOrder_append _ _ hord (localOrder_delBlock _ _)
              · intro hdel
                rw [← ht, hdel]
                exact ⟨evs, by simp, hnodel⟩
              · intro hdel
                rw [← ht, hdel]
                intro g hg
                rcases List.mem_append.mp hg with hg | hg
                · exact hnodel g hg
                · simp at hg
            | false =>
              rw [if_neg (by decide)] at h
              cases hrec : fileLoop cfg dir segFolder env name fuel (i + 1) (u + 2) st'' with
              | raised e' t' =>
                simp only [hrec] at h
                cases h
              | blocked t' =>
                simp only [hrec] at h
                cases h
              | done t' s'' u'' =>
                simp only [hrec] at h
                injection h with ht hs hu
                obtain ⟨hpure', hord', hdel', hnodel'⟩ := ((ih (i + 1) (u + 2) st'').2.2 t' s'' u'' hrec)
                refine ⟨?_, ?_, ?_, ?_⟩
                · rw [← ht]
                  intro ev hev
                  rcases List.mem_append.mp hev with hev | hev
                  · exact hpure ev hev
                  · exact hpure' ev hev
                · rw [← ht]
                  exact localOrder_append _ _ hord hord'
                · intro hdel
                  obtain ⟨t₀, ht₀, hnd⟩ := hdel' hdel
                  refine ⟨evs ++ t₀, ?_, ?_⟩
                  · rw [← ht, ht₀, List.append_assoc]
                  · intro g hg
                    rcases List.mem_append.mp hg with hg | hg
                    · exact hnodel g hg
                    · exact hnd g hg
                · intro hdel
                  rw [← ht]
                  intro g hg
                  rcases List.mem_append.mp hg with hg | hg
                  · exact hnodel g hg
                  · exact hnodel' hdel g hg
        · injection h with ht hs hu
          cases hdel : cfg.deleteItk with
          | true =>
            refine ⟨?_, ?_, ?_, ?_⟩
            · rw [← ht]
              intro ev hev
              rcases List.mem_append.mp hev with hev | hev
              · exact hpure ev hev
              · rw [delBlock_mem hev]
                rfl
            · rw [← ht]
              exact localOrder_append _ _ hord (localOrder_delBlock _ _)
            · intro _
              rw [← ht]
              exact ⟨evs, by simp [hdel], hnodel⟩
            · intro hcontra
              cases hcontra
          | false =>
            refine ⟨?_, ?_, ?_, ?_⟩
            · rw [← ht]
              intro ev hev
              rcases List.mem_append.mp hev with hev | hev
              · exact hpure ev hev
              · rw [delBlock_mem hev]
                rfl
            · rw [← ht]
              exact localOrder_append _ _ hord (localOrder_delBlock _ _)
            · intro hcontra
              cases hcontra
            · intro _
              rw [← ht]
              intro g hg
              rcases List.mem_append.mp hg with hg | hg
              · exact hnodel g hg
              · simp [hdel] at hg

/-! ### Save-range and trace-checker facts -/

theorem saveRange_mem (sf n : String) (uid : Nat → String) :
    ∀ m i u sv, sv ∈ saveRange sf n uid i u m →
      sv.segPath = pathJoin sf n ∧ sv.sop = uid sv.ctr ∧ sv.ser = uid (sv.ctr + 1) ∧
      u ≤ sv.ctr ∧ sv.ctr + 2 ≤ u + 2 * m := by
  intro m
  induction m with
  | zero =>
    intro i u sv h
    cases h
  | succ m ihm =>
    intro i u sv h
    rcases List.mem_cons.mp h with rfl | h
    · refine ⟨rfl, rfl, rfl, le_refl u, ?_⟩
      show u + 2 ≤ u + 2 * (m + 1)
      omega
    · obtain ⟨h1, h2, h3, h4, h5⟩ := ihm (i + 1) (u + 2) sv h
      exact ⟨h1, h2, h3, by omega, by omega⟩

theorem saveRange_chain (sf n : String) (uid : Nat → String) :
    ∀ m i u, ((saveRange sf n uid i u m).map (·.ctr)).Chain' (· < ·) := by
  intro m
  induction m with
  | zero =>
    intro i u
    simp [saveRange]
  | succ m ihm =>
    intro i u
    simp only [saveRange, List.map_cons]
    rw [List.chain'_cons']
    refine ⟨?_, ihm (i + 1) (u + 2)⟩
    intro y hy
    have hmem := List.mem_of_mem_head? hy
    rcases List.mem_map.mp hmem with ⟨sv, hsv, rfl⟩
    have := (saveRange_mem sf n uid m (i + 1) (u + 2) sv hsv).2.2.2.1
    omega

theorem saveRange_map_outPath (sf n : String) (uid : Nat → String) :
    ∀ m i u, (saveRange sf n uid i u m).map (·.outPath) = (List.range' i m).map (outPath sf n) := by
  intro m
  induction m with
  | zero =>
    intro i u
    rfl
  | succ m ihm =>
    intro i u
    show outPath sf n i :: (saveRange sf n uid (i + 1) (u + 2) m).map (·.outPath) = _
    rw [ihm (i + 1) (u + 2)]
    rfl

theorem saveRange_length (sf n : String) (uid : Nat → String) :
    ∀ m i u, (saveRange sf n uid i u m).length = m := by
  intro m
  induction m with
  | zero =>
    intro i u
    rfl
  | succ m ihm =>
    intro i u
    show (saveRange sf n uid (i + 1) (u + 2) m).length + 1 = m + 1
    rw [ihm (i + 1) (u + 2)]

theorem savesOf_mem {t : List Ev} {sv : SaveInfo} (h : sv ∈ savesOf t) :
    Ev.save sv.segPath sv.outPath sv.sop sv.ser sv.ctr ∈ t := by
  unfold savesOf at h
  rcases List.mem_filterMap.mp h with ⟨ev, hev, hm⟩
  cases ev with
  | save f p sop ser c =>
    simp only [Option.some_inj] at hm
    subst hm
    exact hev
  | resample a => cases hm
  | encode a b => cases hm
  | setUIDs a b c => cases hm
  | delete a => cases hm

theorem isDeleteOfB_eq_true {f : String} {ev : Ev} :
    isDeleteOfB f ev = true ↔ ev = Ev.delete f := by
  cases ev <;> simp [isDeleteOfB]

theorem isSaveOfB_eq_false_of_file {f : String} {ev : Ev} (h : ev.evFile ≠ f) :
    isSaveOfB f ev = false := by
  cases ev with
  | save g p sop ser c =>
    have : g ≠ f := h
    simp [isSaveOfB, this]
  | resample a => rfl
  | encode a b => rfl
  | setUIDs a b c => rfl
  | delete a => rfl

theorem isDeleteOfB_eq_false_of_file {f : String} {ev : Ev} (h : ev.evFile ≠ f) :
    isDeleteOfB f ev = false := by
  cases ev with
  | delete g =>
    have : g ≠ f := h
    simp [isDeleteOfB, this]
  | resample a => rfl
  | encode a b => rfl
  | setUIDs a b c => rfl
  | save g p sop ser c => rfl

theorem cleanFor_of_file (f : String) (t : List Ev) (h : ∀ ev ∈ t, ev.evFile ≠ f) :
    cleanFor f t = true := by
  unfold cleanFor
  rw [List.all_eq_true]
  intro ev hev
  rw [isSaveOfB_eq_false_of_file (h ev hev), isDeleteOfB_eq_false_of_file (h ev hev)]
  rfl

theorem isDeleteOfB_eq_false_of_noDelete {f : String} {ev : Ev}
    (h : ∀ g, ev ≠ Ev.delete g) : isDeleteOfB f ev = false := by
  cases ev with
  | delete g => exact absurd rfl (h g)
  | resample a => rfl
  | encode a b => rfl
  | setUIDs a b c => rfl
  | save g p sop ser c => rfl

theorem delOkB_of_noDelete (f : String) (t : List Ev) (h : ∀ g, Ev.delete g ∉ t) :
    delOkB f t = true := by
  induction t with
  | nil => rfl
  | cons ev rest iht =>
    have hne : isDeleteOfB f ev = false := by
      apply isDeleteOfB_eq_false_of_noDelete
      intro g hg
      exact h g (hg ▸ List.mem_cons_self ev rest)
    simp only [delOkB, hne, Bool.false_eq_true, if_false]
    exact iht fun g hg => h g (List.mem_cons_of_mem _ hg)

theorem delOkB_append_left (f : String) (t₁ t₂ : List Ev) (h : ∀ g, Ev.delete g ∉ t₁) :
    delOkB f (t₁ ++ t₂) = delOkB f t₂ := by
  induction t₁ with
  | nil => rfl
  | cons ev rest iht =>
    have hne : isDeleteOfB f ev = false := by
      apply isDeleteOfB_eq_false_of_noDelete
      intro g hg
      exact h g (hg ▸ List.mem_cons_self ev rest)
    simp only [List.cons_append, delOkB, hne, Bool.false_eq_true, if_false]
    exact iht fun g hg => h g (List.mem_cons_of_mem _ hg)

/-- Bridge from the Boolean write-before-delete checker to the split form:
whatever follows a delete of `f` in the trace is neither a save derived from
`f` nor another delete of `f`. -/
theorem delOkB_spec (f : String) : ∀ (t l₁ l₂ : List Ev), delOkB f t = true →
    t = l₁ ++ Ev.delete f :: l₂ →
    ∀ ev ∈ l₂, isSaveOfB f ev = false ∧ ev ≠ Ev.delete f := by
  intro t
  induction t with
  | nil =>
    intro l₁ l₂ _ heq
    cases l₁ <;> cases heq
  | cons ev t' iht =>
    intro l₁ l₂ hok heq
    cases l₁ with
    | nil =>
      simp only [List.nil_append] at heq
      injection heq with h1 h2
      subst h1
      have hclean : cleanFor f l₂ = true := by
        have hd : isDeleteOfB f (Ev.delete f) = true := by simp [isDeleteOfB]
        have hok' := hok
        simp only [delOkB, hd, if_true] at hok'
        rwa [h2] at hok'
      unfold cleanFor at hclean
      rw [List.all_eq_true] at hclean
      intro ev hev
      have := hclean ev hev
      rw [Bool.and_eq_true, Bool.not_eq_true', Bool.not_eq_true'] at this
      refine ⟨this.1, ?_⟩
      intro hcontra
      rw [isDeleteOfB_eq_true.mpr hcontra] at this
      cases this.2
    | cons x l₁' =>
      simp only [List.cons_append] at heq
      injection heq with h1 h2
      subst h1
      cases hD : isDeleteOfB f ev with
      | true =>
        have hclean : cleanFor f t' = true := by
          simpa only [delOkB, hD, if_true] using hok
        unfold cleanFor at hclean
        rw [List.all_eq_true] at hclean
        have hmem : Ev.delete f ∈ t' := by
          rw [h2]
          exact List.mem_append_right _ (List.mem_cons_self _ _)
        have := hclean _ hmem
        rw [Bool.and_eq_true, Bool.not_eq_true', Bool.not_eq_true'] at this
        rw [isDeleteOfB_eq_true.mpr rfl] at this
        cases this.2
      | false =>
        have hok' : delOkB f t' = true := by
          simpa only [delOkB, hD, Bool.false_eq_true, if_false] using hok
        exact iht l₁' l₂ hok' h2

theorem pathJoin_inj {sf a b : String} (h : pathJoin sf a = pathJoin sf b) : a = b := by
  unfold pathJoin at h
  have h2 := congrArg String.data h
  simp only [String.data_append, List.append_assoc] at h2
  exact String.ext (List.append_cancel_left (List.append_cancel_left h2))

/-! ### Whole-run facts -/

theorem writeFiles_purity (cfg : WCfg) (dir segFolder : String) (env : WEnv) :
    ∀ (names : List String) (u : Nat) (s : List Line) (ev : Ev),
    ev ∈ (writeFiles cfg dir segFolder env names u s).trace →
    ∃ nm ∈ names, ev.evFile = pathJoin segFolder nm := by
  intro names
  induction names with
  | nil =>
    intro u s ev h
    simp [writeFiles] at h
  | cons name rest ihn =>
    intro u s ev hev
    have hfl := fileLoop_trace_spec cfg dir segFolder env name (s.length + 1) 0 u s
    cases hcase : fileLoop cfg dir segFolder env name (s.length + 1) 0 u s with
    | raised e t =>
      simp only [writeFiles, hcase] at hev
      exact ⟨name, List.mem_cons_self _ _, (hfl.1 e t hcase).1 ev hev⟩
    | blocked t =>
      simp only [writeFiles, hcase] at hev
      exact ⟨name, List.mem_cons_self _ _, (hfl.2.1 t hcase).1 ev hev⟩
    | done t s' u' =>
      simp only [writeFiles, hcase, List.mem_append] at hev
      rcases hev with hev | hev
      · exact ⟨name, List.mem_cons_self _ _, (hfl.2.2 t s' u' hcase).1 ev hev⟩
      · obtain ⟨nm, hnm, h⟩ := ihn u' s' ev hev
        exact ⟨nm, List.mem_cons_of_mem _ hnm, h⟩

theorem writeFiles_localOrder (cfg : WCfg) (dir segFolder : String) (env : WEnv) :
    ∀ (names : List String) (u : Nat) (s : List Line),
    localOrder (writeFiles cfg dir segFolder env names u s).trace = true := by
  intro names
  induction names with
  | nil =>
    intro u s
    rfl
  | cons name rest ihn =>
    intro u s
    have hfl := fileLoop_trace_spec cfg dir segFolder env name (s.length + 1) 0 u s
    cases hcase : fileLoop cfg dir segFolder env name (s.length + 1) 0 u s with
    | raised e t =>
      simp only [writeFiles, hcase]
      exact (hfl.1 e t hcase).2.1
    | blocked t =>
      simp only [writeFiles, hcase]
      exact (hfl.2.1 t hcase).2.1
    | done t s' u' =>
      simp only [writeFiles, hcase]
      exact localOrder_append _ _ (hfl.2.2 t s' u' hcase).2.1 (ihn u' s')

theorem writeFiles_uid_inv (cfg : WCfg) (dir segFolder : String) (env : WEnv) :
    ∀ (names : List String) (u : Nat) (s : List Line),
    ((savesOf (writeFiles cfg dir segFolder env names u s).trace).map (·.ctr)).Chain' (· < ·) ∧
    ∀ sv ∈ savesOf (writeFiles cfg dir segFolder env names u s).trace,
      u ≤ sv.ctr ∧ sv.sop = env.uid sv.ctr ∧ sv.ser = env.uid (sv.ctr + 1) := by
  intro names
  induction names with
  | nil =>
    intro u s
    constructor
    · simp [writeFiles, savesOf]
    · intro sv hsv
      simp [writeFiles, savesOf] at hsv
  | cons name rest ihn =>
    intro u s
    have hfs := fileLoop_saves cfg dir segFolder env name (s.length + 1) 0 u s
    cases hcase : fileLoop cfg dir segFolder env name (s.length + 1) 0 u s with
    | raised e t =>
      obtain ⟨m, hm⟩ := hfs.1 e t hcase
      constructor
      · simp only [writeFiles, hcase, hm]
        exact saveRange_chain segFolder name env.uid m 0 u
      · intro sv hsv
        simp only [writeFiles, hcase, hm] at hsv
        obtain ⟨_, h2, h3, h4, _⟩ := saveRange_mem segFolder name env.uid m 0 u sv hsv
        exact ⟨h4, h2, h3⟩
    | blocked t =>
      obtain ⟨m, hm⟩ := hfs.2.1 t hcase
      constructor
      · simp only [writeFiles, hcase, hm]
        exact saveRange_chain segFolder name env.uid m 0 u
      · intro sv hsv
        simp only [writeFiles, hcase, hm] at hsv
        obtain ⟨_, h2, h3, h4, _⟩ := saveRange_mem segFolder name env.uid m 0 u sv hsv
        exact ⟨h4, h2, h3⟩
    | done t s' u' =>
      obtain ⟨m, hm, hu'⟩ := hfs.2.2 t s' u' hcase
      obtain ⟨ihchain, ihmem⟩ := ihn u' s'
      constructor
      · simp only [writeFiles, hcase, savesOf_append, hm, List.map_append]
        rw [List.chain'_append]
        refine ⟨saveRange_chain segFolder name env.uid m 0 u, ihchain, ?_⟩
        intro x hx y hy
        have hxmem := List.mem_of_mem_getLast? hx
        rcases List.mem_map.mp hxmem with ⟨sv, hsv, rfl⟩
        have hxb := (saveRange_mem segFolder name env.uid m 0 u sv hsv).2.2.2.2
        have hymem := List.mem_of_mem_head? hy
        rcases List.mem_map.mp hymem with ⟨sv', hsv', rfl⟩
        have hyb := (ihmem sv' hsv').1
        omega
      · intro sv hsv
        simp only [writeFiles, hcase, savesOf_append, List.mem_append, hm] at hsv
        rcases hsv with hsv | hsv
        · obtain ⟨_, h2, h3, h4, _⟩ := saveRange_mem segFolder name env.uid m 0 u sv hsv
          exact ⟨h4, h2, h3⟩
        · obtain ⟨h1, h2, h3⟩ := ihmem sv hsv
          exact ⟨by omega, h2, h3⟩

theorem writeFiles_filter_saves (cfg : WCfg) (dir segFolder : String) (env : WEnv) :
    ∀ (names : List String) (u : Nat) (s : List Line) (f : String), names.Nodup → f ∈ names →
    ∃ m u₀, (savesOf (writeFiles cfg dir segFolder env names u s).trace).filter
        (fun sv => sv.segPath == pathJoin segFolder f) = saveRange segFolder f env.uid 0 u₀ m := by
  intro names
  induction names with
  | nil =>
    intro u s f _ hf
    cases hf
  | cons name rest ihn =>
    intro u s f hnodup hf
    have hfs := fileLoop_saves cfg dir segFolder env name (s.length + 1) 0 u s
    have hnodup' : rest.Nodup := (List.nodup_cons.mp hnodup).2
    have hnotmem : name ∉ rest := (List.nodup_cons.mp hnodup).1
    rcases List.mem_cons.mp hf with rfl | hfrest
    · -- f is the first file
      have hfilterRest : ∀ (u₁ : Nat) (s₁ : List Line),
          (savesOf (writeFiles cfg dir segFolder env rest u₁ s₁).trace).filter
            (fun sv => sv.segPath == pathJoin segFolder f) = [] := by
        intro u₁ s₁
        rw [List.filter_eq_nil_iff]
        intro sv hsv
        have hev := savesOf_mem hsv
        obtain ⟨nm, hnm, hfile⟩ := writeFiles_purity cfg dir segFolder env rest u₁ s₁ _ hev
        have : sv.segPath = pathJoin segFolder nm := hfile
        rw [this]
        intro hbeq
        have := pathJoin_inj (beq_iff_eq.mp hbeq)
        exact hnotmem (this ▸ hnm)
      have hfilterOwn : ∀ (m : Nat) (t : List Ev), savesOf t = saveRange segFolder f env.uid 0 u m →
          (savesOf t).filter (fun sv => sv.segPath == pathJoin segFolder f) =
            saveRange segFolder f env.uid 0 u m := by
        intro m t hm
        rw [hm, List.filter_eq_self]
        intro sv hsv
        rw [(saveRange_mem segFolder f env.uid m 0 u sv hsv).1]
        exact beq_self_eq_true _
      cases hcase : fileLoop cfg dir segFolder env f (s.length + 1) 0 u s with
      | raised e t =>
        obtain ⟨m, hm⟩ := hfs.1 e t hcase
        refine ⟨m, u, ?_⟩
        simp only [writeFiles, hcase]
        exact hfilterOwn m t hm
      | blocked t =>
        obtain ⟨m, hm⟩ := hfs.2.1 t hcase
        refine ⟨m, u, ?_⟩
        simp only [writeFiles, hcase]
        exact hfilterOwn m t hm
      | done t s' u' =>
        obtain ⟨m, hm, _⟩ := hfs.2.2 t s' u' hcase
        refine ⟨m, u, ?_⟩
        simp only [writeFiles, hcase, savesOf_append, List.filter_append]
        rw [hfilterOwn m t hm, hfilterRest u' s', List.append_nil]
    · -- f is a later file
      have hne : name ≠ f := fun he => hnotmem (he ▸ hfrest)
      have hfilterHead : ∀ (m : Nat) (t : List Ev), savesOf t = saveRange segFolder name env.uid 0 u m →
          (savesOf t).filter (fun sv => sv.segPath == pathJoin segFolder f) = [] := by
        intro m t hm
        rw [hm, List.filter_eq_nil_iff]
        intro sv hsv
        rw [(saveRange_mem segFolder name env.uid m 0 u sv hsv).1]
        intro hbeq
        exact hne (pathJoin_inj (beq_iff_eq.mp hbeq))
      cases hcase : fileLoop cfg dir segFolder env name (s.length + 1) 0 u s with
      | raised e t =>
        obtain ⟨m, hm⟩ := hfs.1 e t hcase
        refine ⟨0, 0, ?_⟩
        simp only [writeFiles, hcase]
        rw [hfilterHead m t hm]
        rfl
      | blocked t =>
        obtain ⟨m, hm⟩ := hfs.2.1 t hcase
        refine ⟨0, 0, ?_⟩
        simp only [writeFiles, hcase]
        rw [hfilterHead m t hm]
        rfl
      | done t s' u' =>
        obtain ⟨m, hm, _⟩ := hfs.2.2 t s' u' hcase
        obtain ⟨m', u₀, hrest⟩ := ihn u' s' f hnodup' hfrest
        refine ⟨m', u₀, ?_⟩
        simp only [writeFiles, hcase, savesOf_append, List.filter_append]
        rw [hfilterHead m t hm, hrest, List.nil_append]

theorem writeFiles_delOk (cfg : WCfg) (dir segFolder : String) (env : WEnv) :
    ∀ (names : List String) (u : Nat) (s : List Line) (f : String), names.Nodup →
    delOkB f (writeFiles cfg dir segFolder env names u s).trace = true := by
  intro names
  induction names with
  | nil =>
    intro u s f _
    rfl
  | cons name rest ihn =>
    intro u s f hnodup
    have hfl := fileLoop_trace_spec cfg dir segFolder env name (s.length + 1) 0 u s
    have hnodup' : rest.Nodup := (List.nodup_cons.mp hnodup).2
    have hnotmem : name ∉ rest := (List.nodup_cons.mp hnodup).1
    cases hcase : fileLoop cfg dir segFolder env name (s.length + 1) 0 u s with
    | raised e t =>
      simp only [writeFiles, hcase]
      exact delOkB_of_noDelete f t (hfl.1 e t hcase).2.2.1
    | blocked t =>
      simp only [writeFiles, hcase]
      exact delOkB_of_noDelete f t (hfl.2.1 t hcase).2.2
    | done t s' u' =>
      simp only [writeFiles, hcase]
      cases hdel : cfg.deleteItk with
      | false =>
        have hnd := (hfl.2.2 t s' u' hcase).2.2.2 hdel
        rw [delOkB_append_left f t _ hnd]
        exact ihn u' s' f hnodup'
      | true =>
        obtain ⟨t₀, ht₀, hnd⟩ := (hfl.2.2 t s' u' hcase).2.2.1 hdel
        rw [ht₀, List.append_assoc, List.singleton_append]
        rw [delOkB_append_left f t₀ _ hnd]
        show delOkB f (Ev.delete (pathJoin segFolder name) :: (writeFiles cfg dir segFolder env rest u' s').trace) = true
        cases hsp : isDeleteOfB f (Ev.delete (pathJoin segFolder name)) with
        | false =>
          simp only [delOkB, hsp, Bool.false_eq_true, if_false]
          exact ihn u' s' f hnodup'
        | true =>
          simp only [delOkB, hsp, if_true]
          have hf : pathJoin segFolder name = f := by
            have := hsp
            simp only [isDeleteOfB, beq_iff_eq] at this
            exact this
          apply cleanFor_of_file
          intro ev hev
          obtain ⟨nm, hnm, hfile⟩ := writeFiles_purity cfg dir segFolder env rest u' s' ev hev
          rw [hfile, ← hf]
          intro hcontra
          exact hnotmem ((pathJoin_inj hcontra) ▸ hnm)

theorem writeFiles_fail (cfg : WCfg) (dir segFolder : String) (env : WEnv) :
    ∀ (names : List String) (u : Nat) (s : List Line) (f p : String),
    ((writeFiles cfg dir segFolder env names u s).outcome = .raised (.encodeFail f) ∨
     (writeFiles cfg dir segFolder env names u s).outcome = .raised (.saveFail f p)) →
    (∃ nm ∈ names, f = pathJoin segFolder nm) ∧
    (names.Nodup → Ev.delete f ∉ (writeFiles cfg dir segFolder env names u s).trace) := by
  intro names
  induction names with
  | nil =>
    intro u s f p h
    rcases h with h | h <;> cases h
  | cons name rest ihn =>
    intro u s f p hout
    have hfl := fileLoop_trace_spec cfg dir segFolder env name (s.length + 1) 0 u s
    cases hcase : fileLoop cfg dir segFolder env name (s.length + 1) 0 u s with
    | raised e t =>
      have hfile : f = pathJoin segFolder name := by
        simp only [writeFiles, hcase] at hout
        rcases hout with h | h
        · injection h with h'
          exact (hfl.1 e t hcase).2.2.2.1 f h'
        · injection h with h'
          exact (hfl.1 e t hcase).2.2.2.2 f p h'
      refine ⟨⟨name, List.mem_cons_self _ _, hfile⟩, ?_⟩
      intro _ hmem
      simp only [writeFiles, hcase] at hmem
      exact (hfl.1 e t hcase).2.2.1 f hmem
    | blocked t =>
      simp only [writeFiles, hcase] at hout
      rcases hout with h | h <;> cases h
    | done t s' u' =>
      have hout' : (writeFiles cfg dir segFolder env rest u' s').outcome = .raised (.encodeFail f) ∨
          (writeFiles cfg dir segFolder env rest u' s').outcome = .raised (.saveFail f p) := by
        simpa only [writeFiles, hcase] using hout
      obtain ⟨⟨nm, hnm, hfile⟩, hnodel⟩ := ihn u' s' f p hout'
      refine ⟨⟨nm, List.mem_cons_of_mem _ hnm, hfile⟩, ?_⟩
      intro hnodup hmem
      have hnodup' : rest.Nodup := (List.nodup_cons.mp hnodup).2
      have hnotmem : name ∉ rest := (List.nodup_cons.mp hnodup).1
      simp only [writeFiles, hcase, List.mem_append] at hmem
      rcases hmem with hmem | hmem
      · -- a delete of f inside the first file's (done) trace: f would have to be the first file
        have hne : f ≠ pathJoin segFolder name := by
          rw [hfile]
          intro hcontra
          exact hnotmem ((pathJoin_inj hcontra) ▸ hnm)
        cases hdel : cfg.deleteItk with
        | false => exact (hfl.2.2 t s' u' hcase).2.2.2 hdel f hmem
        | true =>
          obtain ⟨t₀, ht₀, hnd⟩ := (hfl.2.2 t s' u' hcase).2.2.1 hdel
          rw [ht₀, List.mem_append] at hmem
          rcases hmem with hmem | hmem
          · exact hnd f hmem
          · simp only [List.mem_singleton, Ev.delete.injEq] at hmem
            exact hne hmem
      · exact hnodel hnodup' hmem

/-! ### Concrete UID stream facts -/

theorem uidU_inj : Function.Injective uidU := by
  intro m n h
  have h2 : List.replicate (m + 1) 'u' = List.replicate (n + 1) 'u' := congrArg String.data h
  have h3 := congrArg List.length h2
  simpa using h3

theorem uidU_fresh : ∀ n, uidU n ∉ envW.series.map (·.id) := by
  intro n hmem
  have h1 : uidU n = "S" := by simpa [envW, ser1] using hmem
  have h2 : List.replicate (n + 1) 'u' = "S".data := congrArg String.data h1
  have h3 : ('S' : Char) ∈ List.replicate (n + 1) 'u' := by
    rw [h2]
    decide
  have h4 := List.eq_of_mem_replicate h3
  exact absurd h4 (by decide)

theorem uidCex_inj : Function.Injective uidCex := by
  intro m n h
  have h2 : List.replicate m 'u' = List.replicate n 'u' := congrArg String.data h
  have h3 := congrArg List.length h2
  simpa using h3

/-! ### Claim C1: fresh, unique output identifiers -/

/-- C1 counterexample: the claim's hypothesis — `generate_uid` returns a
distinct value on every call — holds of the injective stream `uidCex`, yet
its first value collides with the (empty-string) source series UID, so the
saved dataset's `SOPInstanceUID` equals a source series UID: per-call
distinctness alone does not imply distinctness from the source series'
UIDs. -/
theorem write_uid_counterexample :
    Function.Injective envCex.uid ∧
    ((savesOf (write cfgPlain "imgs" "segs" envCex ["a.nrrd"] [line0]).trace).map (·.sop)) = [""] ∧
    "" ∈ envCex.series.map (·.id) := by
  refine ⟨uidCex_inj, by decide, by decide⟩

/-- C1 (amended): in every run of `write`, the saved datasets' identifiers
are the freshly generated `generate_uid` values, overwritten after the
encoding library returns and immediately before the save (`localOrder`: a
save is immediately preceded by the UID overwrite installing exactly the
saved identifiers, itself immediately preceded by the encoder call); and
under the amended hypothesis that `generate_uid` is globally unique — it
returns a distinct value on every call AND never returns an existing source
series UID — the `K` saved `SOPInstanceUID`s are pairwise distinct, the `K`
saved `SeriesInstanceUID`s are pairwise distinct, and none of them equals
any source series' UID. -/
theorem write_uid_spec (cfg : WCfg) (dir segFolder : String) (env : WEnv)
    (names : List String) (stream : List Line)
    (hinj : Function.Injective env.uid)
    (hfresh : ∀ n, env.uid n ∉ env.series.map (·.id)) :
    localOrder (write cfg dir segFolder env names stream).trace = true ∧
    (∀ sv ∈ savesOf (write cfg dir segFolder env names stream).trace,
      sv.sop = env.uid sv.ctr ∧ sv.ser = env.uid (sv.ctr + 1)) ∧
    ((savesOf (write cfg dir segFolder env names stream).trace).map (·.sop)).Pairwise (· ≠ ·) ∧
    ((savesOf (write cfg dir segFolder env names stream).trace).map (·.ser)).Pairwise (· ≠ ·) ∧
    (∀ sv ∈ savesOf (write cfg dir segFolder env names stream).trace,
      sv.sop ∉ env.series.map (·.id) ∧ sv.ser ∉ env.series.map (·.id)) := by
  obtain ⟨hchain, hmem⟩ := writeFiles_uid_inv cfg dir segFolder env names 0 stream
  have hpair : ((savesOf (write cfg dir segFolder env names stream).trace).map (·.ctr)).Pairwise (· < ·) :=
    List.chain'_iff_pairwise.mp hchain
  refine ⟨writeFiles_localOrder cfg dir segFolder env names 0 stream, ?_, ?_, ?_, ?_⟩
  · intro sv hsv
    exact ⟨(hmem sv hsv).2.1, (hmem sv hsv).2.2⟩
  · have h1 : (savesOf (write cfg dir segFolder env names stream).trace).map (·.sop) =
        ((savesOf (write cfg dir segFolder env names stream).trace).map (·.ctr)).map env.uid := by
      rw [List.map_map]
      exact List.map_congr_left fun sv hsv => (hmem sv hsv).2.1
    rw [h1]
    exact List.Pairwise.map env.uid
      (fun a b hab heq => absurd (hinj heq) (Nat.ne_of_lt hab)) hpair
  · have h1 : (savesOf (write cfg dir segFolder env names stream).trace).map (·.ser) =
        ((savesOf (write cfg dir segFolder env names stream).trace).map (·.ctr)).map
          (fun c => env.uid (c + 1)) := by
      rw [List.map_map]
      exact List.map_congr_left fun sv hsv => (hmem sv hsv).2.2
    rw [h1]
    refine List.Pairwise.map _ (fun a b hab heq => ?_) hpair
    have := hinj heq
    omega
  · intro sv hsv
    refine ⟨?_, ?_⟩
    · rw [(hmem sv hsv).2.1]
      exact hfresh sv.ctr
    · rw [(hmem sv hsv).2.2]
      exact hfresh (sv.ctr + 1)

/-- C1 witness: the amended statement on a two-file run with the injective,
source-avoiding stream `uidU`. -/
theorem write_uid_spec_witness :
    localOrder (write cfgPlain "imgs" "segs" envW ["a.nrrd", "b.nrrd"] [line0, line0]).trace = true ∧
    ((savesOf (write cfgPlain "imgs" "segs" envW ["a.nrrd", "b.nrrd"] [line0, line0]).trace).map
      (·.sop)).Pairwise (· ≠ ·) ∧
    ((savesOf (write cfgPlain "imgs" "segs" envW ["a.nrrd", "b.nrrd"] [line0, line0]).trace).map
      (·.ser)).Pairwise (· ≠ ·) := by
  have h := write_uid_spec cfgPlain "imgs" "segs" envW ["a.nrrd", "b.nrrd"] [line0, line0]
    uidU_inj uidU_fresh
  exact ⟨h.1, h.2.2.1, h.2.2.2.1⟩

/-! ### Claim C2: write-before-delete, delete-at-most-once -/

/-- C2: in every run of `write` over distinct segmentation filenames, once
the trace deletes a source file `f`, nothing after the delete is a save of
an output derived from `f` or another delete of `f` (so each file is
removed at most once, and only after every one of its outputs has been
saved); and when the run ends in an encode or save exception on file `f`,
`f` is never deleted at all. -/
theorem write_delete_spec (cfg : WCfg) (dir segFolder : String) (env : WEnv)
    (names : List String) (stream : List Line) (hnodup : names.Nodup) :
    (∀ f l₁ l₂, (write cfg dir segFolder env names stream).trace = l₁ ++ Ev.delete f :: l₂ →
      ∀ ev ∈ l₂, isSaveOfB f ev = false ∧ ev ≠ Ev.delete f) ∧
    (∀ f p, ((write cfg dir segFolder env names stream).outcome = .raised (.encodeFail f) ∨
        (write cfg dir segFolder env names stream).outcome = .raised (.saveFail f p)) →
      Ev.delete f ∉ (write cfg dir segFolder env names stream).trace) := by
  constructor
  · intro f l₁ l₂ heq
    exact delOkB_spec f _ l₁ l₂ (writeFiles_delOk cfg dir segFolder env names 0 stream f hnodup) heq
  · intro f p hout
    exact (writeFiles_fail cfg dir segFolder env names 0 stream f p hout).2 hnodup

/-- C2 witness: in the concrete two-file run with deletion enabled, the
event after the delete of the first file (the encode of the second file) is
neither a save derived from the first file nor another delete of it. -/
theorem write_delete_spec_witness :
    isSaveOfB "segs/a.nrrd" (Ev.encode "segs/b.nrrd" ["f1"]) = false ∧
    Ev.encode "segs/b.nrrd" ["f1"] ≠ Ev.delete "segs/a.nrrd" := by
  have h := (write_delete_spec cfgDelete "imgs" "segs" envW ["a.nrrd", "b.nrrd"] [line0, line0]
    (by decide)).1
    "segs/a.nrrd"
    [Ev.encode "segs/a.nrrd" ["f1"], Ev.setUIDs "segs/a.nrrd" "u" "uu",
     Ev.save "segs/a.nrrd" "segs/a_0.SEG.dcm" "u" "uu" 0]
    [Ev.encode "segs/b.nrrd" ["f1"], Ev.setUIDs "segs/b.nrrd" "uuu" "uuuu",
     Ev.save "segs/b.nrrd" "segs/b_0.SEG.dcm" "uuu" "uuuu" 2, Ev.delete "segs/b.nrrd"]
    (by decide)
  exact h (Ev.encode "segs/b.nrrd" ["f1"]) (by decide)

/-! ### Claim C5: deterministic output paths -/

/-- C5: in every run of `write` over distinct segmentation filenames, the
outputs derived from a segmentation file `f`, in save order, are saved to
exactly the paths
`<segmentations-folder>/<stem of f>_<k>.SEG.dcm` for `k = 0, 1, 2, ...`:
the association index starts at 0 for each file's first association and
increases by one for each additional association. -/
theorem write_outPath_spec (cfg : WCfg) (dir segFolder : String) (env : WEnv)
    (names : List String) (stream : List Line) (f : String)
    (hnodup : names.Nodup) (hf : f ∈ names) :
    ((savesOf (write cfg dir segFolder env names stream).trace).filter
        (fun sv => sv.segPath == pathJoin segFolder f)).map (·.outPath) =
      (List.range (((savesOf (write cfg dir segFolder env names stream).trace).filter
        (fun sv => sv.segPath == pathJoin segFolder f)).length)).map
        (fun k => pathJoin segFolder (pathStem f) ++ "_" ++ toString k ++ ".SEG.dcm") := by
  obtain ⟨m, u₀, hm⟩ := writeFiles_filter_saves cfg dir segFolder env names 0 stream f hnodup hf
  unfold write
  rw [hm, saveRange_map_outPath segFolder f env.uid m 0 u₀, saveRange_length segFolder f env.uid m 0 u₀]
  rw [← List.range_eq_range']
  apply List.map_congr_left
  intro k _
  rfl

/-- C5 witness: the multi-association run on `Patient1_CT.seg.nrrd` (select,
answer `y`, select, answer `n`), whose two outputs are
`segs/Patient1_CT.seg_0.SEG.dcm` and `segs/Patient1_CT.seg_1.SEG.dcm`. -/
theorem write_outPath_spec_witness :
    ((savesOf (write cfgMulti "imgs" "segs" envW ["Patient1_CT.seg.nrrd"]
        [line0, lineY, line0, lineN]).trace).filter
        (fun sv => sv.segPath == pathJoin "segs" "Patient1_CT.seg.nrrd")).map (·.outPath) =
      (List.range (((savesOf (write cfgMulti "imgs" "segs" envW ["Patient1_CT.seg.nrrd"]
        [line0, lineY, line0, lineN]).trace).filter
        (fun sv => sv.segPath == pathJoin "segs" "Patient1_CT.seg.nrrd")).length)).map
        (fun k => pathJoin "segs" (pathStem "Patient1_CT.seg.nrrd") ++ "_" ++ toString k ++
          ".SEG.dcm") :=
  write_outPath_spec cfgMulti "imgs" "segs" envW ["Patient1_CT.seg.nrrd"]
    [line0, lineY, line0, lineN] "Patient1_CT.seg.nrrd" (by decide) (by decide)

/-! ### Claims C6 and C7: series enumeration and patient-consistency errors -/

theorem getDicom_seriesErr (dir : String) (series : List RawSeries) (stream : List Line)
    (e : RunErr) (herr : seriesDataList dir series = .error e) :
    getDicomSeriesPathsForGivenSegmentation dir series stream = .error e := by
  unfold getDicomSeriesPathsForGivenSegmentation
  rw [herr]

theorem iterOnce_seriesErr (cfg : WCfg) (dir segFolder : String) (env : WEnv) (name : String)
    (i u : Nat) (stream : List Line) (e : RunErr)
    (herr : seriesDataList dir env.series = .error e) :
    iterOnce cfg dir segFolder env name i u stream = .raisedE e [] := by
  unfold iterOnce
  rw [getDicom_seriesErr dir env.series stream e herr]

theorem writeFiles_seriesErr (cfg : WCfg) (dir segFolder : String) (env : WEnv) (e : RunErr)
    (herr : seriesDataList dir env.series = .error e) :
    ∀ (names : List String) (u : Nat) (s : List Line),
    (writeFiles cfg dir segFolder env names u s).trace = [] ∧
    (names ≠ [] → (writeFiles cfg dir segFolder env names u s).outcome = .raised e) := by
  intro names u s
  cases names with
  | nil => exact ⟨rfl, fun h => absurd rfl h⟩
  | cons name rest =>
    have hfl : fileLoop cfg dir segFolder env name (s.length + 1) 0 u s = .raised e [] := by
      simp only [fileLoop, iterOnce_seriesErr cfg dir segFolder env name 0 u s e herr]
    exact ⟨by simp only [writeFiles, hfl], fun _ => by simp only [writeFiles, hfl]⟩

/-- C6: over a patient image directory from which the series enumerator
yields zero series, `__series_ids` raises the error naming the directory
(the `FileNotFoundError` "Given directory ... does not contain a DICOM
series.", the spec's `NoSeriesFoundError`), and a `write` run over that
directory attempts no resampling, encoding, saving, or deleting at all (its
trace is empty), ending raised as soon as there is a segmentation to
process. -/
theorem seriesIds_noSeries_spec (dir : String) (env : WEnv) (hempty : env.series = []) :
    seriesIds dir env.series = .error (.noSeriesFound dir) ∧
    ∀ cfg segFolder names stream,
      (write cfg dir segFolder env names stream).trace = [] ∧
      (names ≠ [] → (write cfg dir segFolder env names stream).outcome =
        .raised (.noSeriesFound dir)) := by
  have herr : seriesDataList dir env.series = .error (.noSeriesFound dir) := by
    rw [hempty]
    rfl
  constructor
  · rw [hempty]
    rfl
  · intro cfg segFolder names stream
    exact writeFiles_seriesErr cfg dir segFolder env _ herr names 0 stream

/-- C6 witness: the empty-folder environment with one segmentation file. -/
theorem seriesIds_noSeries_spec_witness :
    seriesIds "imgs" envNoSeries.series = .error (.noSeriesFound "imgs") ∧
    (write cfgPlain "imgs" "segs" envNoSeries ["a.nrrd"] []).trace = [] ∧
    (write cfgPlain "imgs" "segs" envNoSeries ["a.nrrd"] []).outcome =
      .raised (.noSeriesFound "imgs") := by
  have h := seriesIds_noSeries_spec "imgs" envNoSeries rfl
  exact ⟨h.1, (h.2 cfgPlain "segs" ["a.nrrd"] []).1,
    (h.2 cfgPlain "segs" ["a.nrrd"] []).2 (by decide)⟩

theorem seriesDataList_multi (dir : String) (series : List RawSeries)
    (hgt : 1 < ((series.map (·.header.patientID)).dedup).length) :
    seriesDataList dir series =
      .error (.multiPatient ((series.map (·.header.patientID)).dedup)) := by
  cases series with
  | nil => simp at hgt
  | cons r rs =>
    simp only [seriesDataList, seriesIds]
    rw [if_pos (by omega)]

theorem seriesDataList_single (dir : String) (series : List RawSeries)
    (h1 : ((series.map (·.header.patientID)).dedup).length = 1) :
    seriesDataList dir series = .ok (series.map mkSeriesData) := by
  cases series with
  | nil => simp at h1
  | cons r rs =>
    simp only [seriesDataList, seriesIds]
    rw [if_neg (by omega)]

/-- C7: when a patient image directory's series headers yield more than one
distinct `PatientID`, building the series data list raises the consistency
error carrying the offending set (the `AssertionError` of
`__series_data_list`, the spec's `MultiPatientInconsistencyError`), and a
`write` run performs no association, encoding, writing or deleting at all
(its trace is empty); when exactly one distinct `PatientID` is observed, the
series data list is returned. -/
theorem seriesDataList_patient_spec (dir : String) (env : WEnv) :
    (1 < ((env.series.map (·.header.patientID)).dedup).length →
      seriesDataList dir env.series =
        .error (.multiPatient ((env.series.map (·.header.patientID)).dedup)) ∧
      ∀ cfg segFolder names stream, (write cfg dir segFolder env names stream).trace = []) ∧
    (((env.series.map (·.header.patientID)).dedup).length = 1 →
      seriesDataList dir env.series = .ok (env.series.map mkSeriesData)) := by
  constructor
  · intro hgt
    have herr := seriesDataList_multi dir env.series hgt
    refine ⟨herr, ?_⟩
    intro cfg segFolder names stream
    exact (writeFiles_seriesErr cfg dir segFolder env _ herr names 0 stream).1
  · intro h1
    exact seriesDataList_single dir env.series h1

/-- C7 witness: the two-patient folder raises the consistency error with an
empty run trace; the one-patient folder yields its series data list. -/
theorem seriesDataList_patient_spec_witness :
    seriesDataList "imgs" envTwoP.series =
      .error (.multiPatient ((envTwoP.series.map (·.header.patientID)).dedup)) ∧
    (write cfgPlain "imgs" "segs" envTwoP ["a.nrrd"] [line0]).trace = [] ∧
    seriesDataList "imgs" envW.series = .ok (envW.series.map mkSeriesData) := by
  have h2 := seriesDataList_patient_spec "imgs" envTwoP
  have h1 := seriesDataList_patient_spec "imgs" envW
  exact ⟨(h2.1 (by decide)).1, (h2.1 (by decide)).2 cfgPlain "segs" ["a.nrrd"] [line0],
    h1.2 (by decide)⟩
